import Mathlib

/-!
Verification of the fonticulus font-binary codec workspace: a shallow
embedding, in Lean, of the cursor-based reader (`ReaderContext`), the
name-table codec, the script/language layout conversion layer, the
offset-graph resolver, and the non-hinted-font fix tool, together with
theorems settling the specified behavioural properties.

Bytes are modelled as natural numbers; 16-bit machine arithmetic is
made explicit with `% 65536` where the source casts to `u16`.  Fallible
operations return `Except`; operations whose Rust source can panic
(`expect`, `unimplemented!`) are modelled with an explicit panic-aware
result type so that "reported error" and "fatal panic" are
distinguishable propositions.
-/

namespace Fonticulus

/-- Deserialization error carrying a message, mirroring
`DeserializationError(pub String)` of otspec. -/
structure DeserializationError where
  msg : String
deriving Repr, DecidableEq

/-- Decidable equality of `Except` results, so that concrete decode
outcomes can be checked by evaluation. -/
instance instDecEqExcept {ε α : Type} [DecidableEq ε] [DecidableEq α] :
    DecidableEq (Except ε α) := fun x y =>
  match x, y with
  | .error a, .error b =>
    if h : a = b then isTrue (by rw [h])
    else isFalse (fun hh => h (by injection hh))
  | .error _, .ok _ => isFalse (fun hh => Except.noConfusion hh)
  | .ok _, .error _ => isFalse (fun hh => Except.noConfusion hh)
  | .ok a, .ok b =>
    if h : a = b then isTrue (by rw [h])
    else isFalse (fun hh => h (by injection hh))

/-- Result of a computation that can succeed, report a recoverable
error, or hit a fatal panic (Rust `panic!` / `unimplemented!` /
`expect`). -/
inductive PResult (ε α : Type) where
  | ok (a : α)
  | err (e : ε)
  | panic
deriving Repr, DecidableEq

/-- The byte-cursor state of `otspec::ReaderContext`: input buffer,
read position, and the stack of table origins.  The Rust source keeps
the stack in a `Vec` whose last element is the top; here the head of
the list is the top of the stack. -/
structure ReaderContext where
  input : List Nat
  ptr : Nat
  stack : List Nat
deriving Repr, DecidableEq

namespace ReaderContext

/-- Constructor mirroring `ReaderContext::new`: position 0 and an
origin stack holding the single initial origin 0. -/
def new (input : List Nat) : ReaderContext :=
  { input := input, ptr := 0, stack := [0] }

/-- The body shared by `consume` and `peek`: returns the next `bytes`
bytes, failing with "End of file" when fewer remain; advances the
position only when `consume` is true. -/
def consume_or_peek (c : ReaderContext) (bytes : Nat) (consume : Bool) :
    Except DeserializationError (List Nat × ReaderContext) :=
  if c.ptr + bytes > c.input.length then
    .error ⟨"End of file"⟩
  else
    .ok ((c.input.drop c.ptr).take bytes,
      if consume then { c with ptr := c.ptr + bytes } else c)

/-- Advancing read of `bytes` bytes. -/
def consume (c : ReaderContext) (bytes : Nat) :
    Except DeserializationError (List Nat × ReaderContext) :=
  c.consume_or_peek bytes true

/-- Non-advancing read of `bytes` bytes. -/
def peek (c : ReaderContext) (bytes : Nat) :
    Except DeserializationError (List Nat × ReaderContext) :=
  c.consume_or_peek bytes false

/-- `enter_table`: push the current position onto the origin stack. -/
def push (c : ReaderContext) : ReaderContext :=
  { c with stack := c.ptr :: c.stack }

/-- `leave_table`: pop the origin stack.  The Rust source calls
`.pop().expect("pop with no matching push")`, which panics exactly
when the stack is empty; `none` models that panic. -/
def pop (c : ReaderContext) : Option ReaderContext :=
  match c.stack with
  | [] => none
  | _ :: rest => some { c with stack := rest }

/-- `top_of_table`: the innermost table origin.  The Rust source calls
`.last().expect("not in a struct")`; `none` models that panic. -/
def top_of_table (c : ReaderContext) : Option Nat :=
  c.stack.head?

/-- `skip`: advance the position without a bounds check. -/
def skip (c : ReaderContext) (bytes : Nat) : ReaderContext :=
  { c with ptr := c.ptr + bytes }

/-- `follow_offset`: move the position to `top_of_table + offset`,
reporting an error when the destination exceeds the buffer length.
The outer `Option` models the `top_of_table` panic on an empty origin
stack. -/
def follow_offset (c : ReaderContext) (offset : Nat) :
    Option (Except DeserializationError ReaderContext) :=
  (c.top_of_table).map (fun top =>
    let destination := top + offset
    if destination > c.input.length then
      .error ⟨"Offset fell off end of data"⟩
    else
      .ok { c with ptr := destination })

end ReaderContext

/-- Big-endian serialization of a `u16` value (`to_be_bytes` after the
source's cast to `u16`, hence the `% 65536`). -/
def put16 (v : Nat) : List Nat :=
  [v % 65536 / 256, v % 256]

/-- Deserialization of a big-endian `u16` (`from_be_bytes` on two
consumed bytes). -/
def de_u16 (c : ReaderContext) :
    Except DeserializationError (Nat × ReaderContext) :=
  match c.consume 2 with
  | .error e => .error e
  | .ok (bs, c') =>
    match bs with
    | [b1, b0] => .ok (b1 * 256 + b0, c')
    | _ => .error ⟨"Slice with incorrect length"⟩

/-- Deserialization of a single byte (`u8::from_bytes`). -/
def de_u8 (c : ReaderContext) :
    Except DeserializationError (Nat × ReaderContext) :=
  match c.consume 1 with
  | .error e => .error e
  | .ok (bs, c') =>
    match bs with
    | [b] => .ok (b, c')
    | _ => .error ⟨"Slice with incorrect length"⟩

/-- `Deserializer::de_counted`: run an element decoder `s` times,
collecting the results in order and stopping at the first error
(the Rust `(0..s).map(..).collect::<Result<_,_>>()`). -/
def de_counted {α : Type}
    (de : ReaderContext → Except DeserializationError (α × ReaderContext)) :
    Nat → ReaderContext →
    Except DeserializationError (List α × ReaderContext)
  | 0, c => .ok ([], c)
  | n + 1, c =>
    match de c with
    | .error e => .error e
    | .ok (x, c') =>
      match de_counted de n c' with
      | .error e => .error e
      | .ok (xs, c'') => .ok (x :: xs, c'')

/-! ## The name table codec (fonttools/src/tables/name.rs) -/

/-- The concrete text encodings selectable by the name table, matching
the `EncodingRef` constants used by `get_encoding`. -/
inductive Encoding where
  | utf16be
  | macRoman
  | macCyrillic
  | windows1252
  | windows31j
  | gbk
  | big5
  | windows949
deriving Repr, DecidableEq

/-- `get_encoding(platform_id, encoding_id)`: the pure selection of a
text encoding from the platform and encoding ids.  `none` models the
`unimplemented!()` panics of the source (platform 2 with an unmapped
id, platform 3 with id 6, and any platform above 3). -/
def get_encoding (platform_id encoding_id : Nat) : Option Encoding :=
  if platform_id = 0 then
    some .utf16be
  else if platform_id = 1 then
    if encoding_id = 7 then some .macCyrillic else some .macRoman
  else if platform_id = 2 then
    match encoding_id with
    | 0 => some .windows1252
    | 1 => some .utf16be
    | 2 => some .windows1252
    | _ => none
  else if platform_id = 3 then
    match encoding_id with
    | 0 => some .utf16be
    | 1 => some .utf16be
    | 2 => some .windows31j
    | 3 => some .gbk
    | 4 => some .big5
    | 5 => some .windows949
    | 6 => none
    | _ => some .utf16be
  else
    none

/-- Worker for UTF-16BE decoding, structurally recursive on a fuel
argument so that the kernel can evaluate it; every recursive call
shortens the byte list by at least two, so any fuel of at least half
the list length gives the fuel-free meaning, and fuel 0 with two or
more bytes left is unreachable from `utf16beDecode`. -/
def utf16beDecodeAux : Nat → List Nat → List Nat
  | _, [] => []
  | _, [_] => [0xFFFD]
  | 0, _ :: _ :: _ => []
  | fuel + 1, b1 :: b0 :: rest =>
    let u := b1 * 256 + b0
    if 0xD800 ≤ u ∧ u ≤ 0xDBFF then
      match rest with
      | b3 :: b2 :: rest' =>
        let l := b3 * 256 + b2
        if 0xDC00 ≤ l ∧ l ≤ 0xDFFF then
          (0x10000 + (u - 0xD800) * 0x400 + (l - 0xDC00)) ::
            utf16beDecodeAux fuel rest'
        else
          0xFFFD :: utf16beDecodeAux fuel (b3 :: b2 :: rest')
      | _ => [0xFFFD, 0xFFFD]
    else if 0xDC00 ≤ u ∧ u ≤ 0xDFFF then
      0xFFFD :: utf16beDecodeAux fuel rest
    else
      u :: utf16beDecodeAux fuel rest

/-- UTF-16BE decoding with replacement of malformed sequences
(`DecoderTrap::Replace`), producing a list of Unicode code points. -/
def utf16beDecode (bs : List Nat) : List Nat :=
  utf16beDecodeAux bs.length bs

/-- UTF-16BE encoding of a list of code points
(`EncoderTrap::Replace`; code points in the surrogate gap cannot occur
in decoded text and are replaced). -/
def utf16beEncode : List Nat → List Nat
  | [] => []
  | cp :: rest =>
    if 0xD800 ≤ cp ∧ cp ≤ 0xDFFF then
      0x00 :: 0x3F :: utf16beEncode rest
    else if cp < 0x10000 then
      cp / 256 :: cp % 256 :: utf16beEncode rest
    else
      let v := cp - 0x10000
      (0xD800 + v / 0x400) / 256 :: (0xD800 + v / 0x400) % 256 ::
        (0xDC00 + v % 0x400) / 256 :: (0xDC00 + v % 0x400) % 256 ::
          utf16beEncode rest

/-- Modelled from the spec: the legacy single- and multi-byte
encodings (Macintosh Roman above 0x7F, Macintosh Cyrillic,
Windows-1252, Windows-31J, GBK, Big5, Windows-949) live in an external
encoding crate that is out of scope for the core; the spec only
requires an encode/decode capability that substitutes on invalid
input.  This models each such encoding as a byte map that is the
identity on ASCII and injects high bytes into a private code-point
page determined by the encoding, which suffices for every behaviour
the core itself fixes. -/
def legacyDecodeByte (page b : Nat) : Nat :=
  if b < 0x80 then b else page + b

/-- Modelled from the spec: the inverse direction of
`legacyDecodeByte`, substituting `?` (0x3F) for unencodable code
points (`EncoderTrap::Replace`). -/
def legacyEncodeChar (page cp : Nat) : Nat :=
  if cp < 0x80 then cp
  else if page + 0x80 ≤ cp ∧ cp < page + 0x100 then cp - page
  else 0x3F

/-- The private page used by the legacy-encoding model for each
encoding. -/
def Encoding.page : Encoding → Nat
  | .macRoman => 0xE000
  | .macCyrillic => 0xE100
  | .windows1252 => 0xE200
  | .windows31j => 0xE300
  | .gbk => 0xE400
  | .big5 => 0xE500
  | .windows949 => 0xE600
  | .utf16be => 0

/-- `EncodingRef::decode` with `DecoderTrap::Replace`: bytes to code
points. -/
def decodeStr (e : Encoding) (bs : List Nat) : List Nat :=
  match e with
  | .utf16be => utf16beDecode bs
  | _ => bs.map (legacyDecodeByte e.page)

/-- `EncodingRef::encode` with `EncoderTrap::Replace`: code points to
bytes. -/
def encodeStr (e : Encoding) (s : List Nat) : List Nat :=
  match e with
  | .utf16be => utf16beEncode s
  | _ => s.map (legacyEncodeChar e.page)

/-- The six fixed `u16` fields of a low-level name record, in wire
order (`NameRecordInternal` of the `tables!` macro). -/
structure NameRecordInternal where
  platformID : Nat
  encodingID : Nat
  languageID : Nat
  nameID : Nat
  length : Nat
  stringOffset : Nat
deriving Repr, DecidableEq

/-- Deserialization of a `NameRecordInternal`: six big-endian `u16`
reads in declared order. -/
def deNameRecordInternal (c : ReaderContext) :
    Except DeserializationError (NameRecordInternal × ReaderContext) :=
  match de_u16 c with
  | .error e => .error e
  | .ok (p, c) =>
    match de_u16 c with
    | .error e => .error e
    | .ok (enc, c) =>
      match de_u16 c with
      | .error e => .error e
      | .ok (lang, c) =>
        match de_u16 c with
        | .error e => .error e
        | .ok (nid, c) =>
          match de_u16 c with
          | .error e => .error e
          | .ok (len, c) =>
            match de_u16 c with
            | .error e => .error e
            | .ok (so, c) =>
              .ok (⟨p, enc, lang, nid, len, so⟩, c)

/-- A decoded name record: the fixed ids plus the decoded text, the
text being a list of Unicode code points. -/
structure NameRecord where
  platformID : Nat
  encodingID : Nat
  languageID : Nat
  nameID : Nat
  string : List Nat
deriving Repr, DecidableEq

/-- A font name table: a list of name records (`struct name`). -/
structure name where
  records : List NameRecord
deriving Repr, DecidableEq

/-- The per-record body of `name::from_bytes`: seek to
`top_of_table + stringOffset`, read `length` bytes, select the
encoding, and decode the string with replacement.  `PResult.panic`
models the `unimplemented!()` reachable through `get_encoding` and the
(unreachable) `top_of_table` panic. -/
def readNameStrings :
    List NameRecordInternal → ReaderContext →
    PResult DeserializationError (List NameRecord × ReaderContext)
  | [], c => .ok ([], c)
  | ir :: rest, c =>
    match c.top_of_table with
    | none => .panic
    | some top =>
      let c := { c with ptr := top + ir.stringOffset }
      match de_counted de_u8 ir.length c with
      | .error e => .err e
      | .ok (string_as_bytes, c) =>
        match get_encoding ir.platformID ir.encodingID with
        | none => .panic
        | some encoding =>
          let s := decodeStr encoding string_as_bytes
          match readNameStrings rest c with
          | .ok (rs, c') =>
            .ok ({ platformID := ir.platformID,
                   encodingID := ir.encodingID,
                   languageID := ir.languageID,
                   nameID := ir.nameID,
                   string := s } :: rs, c')
          | .err e => .err e
          | .panic => .panic

/-- `name::from_bytes`: skip the version field, read the record count,
skip the string-pool offset field, read the fixed records, then enter
a table scope at the current position (the start of the string pool)
and read each record's string. -/
def nameFromBytes (c0 : ReaderContext) :
    PResult DeserializationError name :=
  let c := c0.skip 2
  match de_u16 c with
  | .error e => .err e
  | .ok (count, c) =>
    let c := c.skip 2
    match de_counted deNameRecordInternal count c with
    | .error e => .err e
    | .ok (internal_records, c) =>
      let c := c.push
      match readNameStrings internal_records c with
      | .err e => .err e
      | .panic => .panic
      | .ok (records, c) =>
        match c.pop with
        | none => .panic
        | some _ => .ok { records := records }

/-- Deserialize a name table from raw bytes (`otspec::de::from_bytes`
on a fresh reader). -/
def nameDeserialize (bytes : List Nat) :
    PResult DeserializationError name :=
  nameFromBytes (ReaderContext.new bytes)

/-- The record loop of `name::to_bytes`: for each record select the
encoding (`none` models the `get_encoding` panic), encode the string
with replacement, emit the six fixed fields with the running pool
length as the string offset, and extend the string pool. -/
def nameRecordsToBytes :
    List NameRecord → List Nat → Option (List Nat × List Nat)
  | [], string_pool => some ([], string_pool)
  | r :: rest, string_pool =>
    match get_encoding r.platformID r.encodingID with
    | none => none
    | some encoder =>
      let encoded := encodeStr encoder r.string
      let recBytes :=
        put16 r.platformID ++ put16 r.encodingID ++ put16 r.languageID ++
          put16 r.nameID ++ put16 encoded.length ++ put16 string_pool.length
      match nameRecordsToBytes rest (string_pool ++ encoded) with
      | none => none
      | some (bs, pool') => some (recBytes ++ bs, pool')

/-- `name::to_bytes`: a zero version field, the record count, the pool
offset `6 + 12 * count` (in `u16` arithmetic), the fixed records, then
the string pool. -/
def nameSerialize (n : name) : Option (List Nat) :=
  match nameRecordsToBytes n.records [] with
  | none => none
  | some (recBytes, string_pool) =>
    some (put16 0 ++ put16 (n.records.length % 65536) ++
      put16 (6 + 12 * (n.records.length % 65536)) ++ recBytes ++ string_pool)

/-! ## Well-formed name tables and the round-trip fixture -/

/-- One record of a canonical name table, before decoding: the four
`u16` ids and the record's slice of the string pool. -/
structure RawNameRec where
  platformID : Nat
  encodingID : Nat
  languageID : Nat
  nameID : Nat
  bytes : List Nat
deriving Repr, DecidableEq

/-- The twelve bytes of one fixed name record, with `so` the record's
offset into the string pool. -/
def buildNameRecordBytes (so : Nat) (r : RawNameRec) : List Nat :=
  put16 r.platformID ++ put16 r.encodingID ++ put16 r.languageID ++
    put16 r.nameID ++ put16 r.bytes.length ++ put16 so

/-- The fixed-record region of a canonical name table: string offsets
are the running partial sums of the string lengths, i.e. the pool is
tightly packed in record order. -/
def buildNameRecords : Nat → List RawNameRec → List Nat
  | _, [] => []
  | so, r :: rest =>
    buildNameRecordBytes so r ++ buildNameRecords (so + r.bytes.length) rest

/-- The string pool of a canonical name table. -/
def buildNamePool : List RawNameRec → List Nat
  | [] => []
  | r :: rest => r.bytes ++ buildNamePool rest

/-- A canonical name table: zero version, record count, pool offset
`6 + 12 * count`, fixed records, string pool. -/
def buildNameTable (rs : List RawNameRec) : List Nat :=
  put16 0 ++ put16 rs.length ++ put16 (6 + 12 * rs.length) ++
    buildNameRecords 0 rs ++ buildNamePool rs

/-- Validity of one raw record: `u16`-sized fields, a supported
platform/encoding pair, and string bytes on which the selected
encoding's decode is inverted by its encode (a string the codec can
represent losslessly). -/
def validNameRec (r : RawNameRec) : Bool :=
  decide (r.platformID < 65536) && decide (r.encodingID < 65536) &&
    decide (r.languageID < 65536) && decide (r.nameID < 65536) &&
    decide (r.bytes.length < 65536) &&
    match get_encoding r.platformID r.encodingID with
    | none => false
    | some enc => decide (encodeStr enc (decodeStr enc r.bytes) = r.bytes)

/-- Validity of a record list given the running pool offset: every
stored string offset fits in a `u16` and every record is valid. -/
def validNameRecs : Nat → List RawNameRec → Bool
  | _, [] => true
  | so, r :: rest =>
    decide (so < 65536) && validNameRec r &&
      validNameRecs (so + r.bytes.length) rest

/-- A well-formed name-table byte sequence: the canonical layout of
some valid record list with a `u16`-sized record count. -/
def WellFormedNameTable (b : List Nat) : Prop :=
  ∃ rs : List RawNameRec,
    rs.length < 65536 ∧ validNameRecs 0 rs = true ∧ b = buildNameTable rs

/-- The low-level records a canonical table's fixed region denotes. -/
def internalsOfRaw : Nat → List RawNameRec → List NameRecordInternal
  | _, [] => []
  | so, r :: rest =>
    ⟨r.platformID, r.encodingID, r.languageID, r.nameID, r.bytes.length, so⟩ ::
      internalsOfRaw (so + r.bytes.length) rest

/-- The decoded string of a raw record under its selected encoding. -/
def rawDecodedString (r : RawNameRec) : List Nat :=
  match get_encoding r.platformID r.encodingID with
  | some enc => decodeStr enc r.bytes
  | none => []

/-- The name value a canonical table decodes to. -/
def nameOfRaw (rs : List RawNameRec) : name :=
  ⟨rs.map (fun r =>
    ⟨r.platformID, r.encodingID, r.languageID, r.nameID,
      rawDecodedString r⟩)⟩

/-- The code points of "Regular". -/
def strRegular : List Nat := [0x52, 0x65, 0x67, 0x75, 0x6c, 0x61, 0x72]

/-- The code points of "weight". -/
def strWeight : List Nat := [0x77, 0x65, 0x69, 0x67, 0x68, 0x74]

/-- The code points of "slant". -/
def strSlant : List Nat := [0x73, 0x6c, 0x61, 0x6e, 0x74]

/-- The raw records of the six-record round-trip fixture: Macintosh
(platform 1, encoding 0, language 0) and Windows (platform 3,
encoding 1, language 0x409) versions of name ids 17, 256 and 257. -/
def fixtureRaw : List RawNameRec :=
  [⟨1, 0, 0, 17, strRegular⟩,
   ⟨1, 0, 0, 256, strWeight⟩,
   ⟨1, 0, 0, 257, strSlant⟩,
   ⟨3, 1, 0x409, 17, utf16beEncode strRegular⟩,
   ⟨3, 1, 0x409, 256, utf16beEncode strWeight⟩,
   ⟨3, 1, 0x409, 257, utf16beEncode strSlant⟩]

/-- The serialized fixture (the `binary_name` bytes of the source's
name-table test). -/
def fixtureNameBytes : List Nat :=
  [0x00, 0x00, 0x00, 0x06, 0x00, 0x4e, 0x00, 0x01, 0x00, 0x00, 0x00, 0x00,
   0x00, 0x11, 0x00, 0x07, 0x00, 0x00, 0x00, 0x01, 0x00, 0x00, 0x00, 0x00,
   0x01, 0x00, 0x00, 0x06, 0x00, 0x07, 0x00, 0x01, 0x00, 0x00, 0x00, 0x00,
   0x01, 0x01, 0x00, 0x05, 0x00, 0x0d, 0x00, 0x03, 0x00, 0x01, 0x04, 0x09,
   0x00, 0x11, 0x00, 0x0e, 0x00, 0x12, 0x00, 0x03, 0x00, 0x01, 0x04, 0x09,
   0x01, 0x00, 0x00, 0x0c, 0x00, 0x20, 0x00, 0x03, 0x00, 0x01, 0x04, 0x09,
   0x01, 0x01, 0x00, 0x0a, 0x00, 0x2c, 0x52, 0x65, 0x67, 0x75, 0x6c, 0x61,
   0x72, 0x77, 0x65, 0x69, 0x67, 0x68, 0x74, 0x73, 0x6c, 0x61, 0x6e, 0x74,
   0x00, 0x52, 0x00, 0x65, 0x00, 0x67, 0x00, 0x75, 0x00, 0x6c, 0x00, 0x61,
   0x00, 0x72, 0x00, 0x77, 0x00, 0x65, 0x00, 0x69, 0x00, 0x67, 0x00, 0x68,
   0x00, 0x74, 0x00, 0x73, 0x00, 0x6c, 0x00, 0x61, 0x00, 0x6e, 0x00, 0x74]

/-- The decoded fixture name table. -/
def fixtureNameTable : name :=
  ⟨[⟨1, 0, 0, 17, strRegular⟩,
    ⟨1, 0, 0, 256, strWeight⟩,
    ⟨1, 0, 0, 257, strSlant⟩,
    ⟨3, 1, 0x409, 17, strRegular⟩,
    ⟨3, 1, 0x409, 256, strWeight⟩,
    ⟨3, 1, 0x409, 257, strSlant⟩]⟩

/-- A name table whose single record selects platform 3, encoding 6:
count 1, pool offset 18, record ids (3, 6, 0, 0), string length 0,
string offset 0. -/
def encoding6TableBytes : List Nat :=
  [0x00, 0x00, 0x00, 0x01, 0x00, 0x12,
   0x00, 0x03, 0x00, 0x06, 0x00, 0x00, 0x00, 0x00, 0x00, 0x00, 0x00, 0x00]

/-- A name table whose single record has string offset 100 and string
length 0: the record's pool slice lies entirely beyond the buffer,
yet nothing is read. -/
def emptyOverlongTableBytes : List Nat :=
  [0x00, 0x00, 0x00, 0x01, 0x00, 0x12,
   0x00, 0x00, 0x00, 0x00, 0x00, 0x00, 0x00, 0x00, 0x00, 0x00, 0x00, 0x64]

/-- A name table whose single record has string offset 0 and string
length 5 with an empty pool: the read runs off the buffer end. -/
def overlongTableBytes : List Nat :=
  [0x00, 0x00, 0x00, 0x01, 0x00, 0x12,
   0x00, 0x00, 0x00, 0x00, 0x00, 0x00, 0x00, 0x00, 0x00, 0x05, 0x00, 0x00]

/-! ## Layout conversion layer (fonttools/src/layout/common.rs) -/

/-- An unresolved 16-bit offset field holding an optional link to its
target (otspec `Offset16<T>`; only the `link` component matters to the
conversion layer). -/
structure Offset16 (α : Type) where
  link : Option α
deriving Repr, DecidableEq

/-- `Offset16::to`: an offset owning its target. -/
def Offset16.to {α : Type} (x : α) : Offset16 α := ⟨some x⟩

/-- `Offset16::to_nothing`: a null offset. -/
def Offset16.to_nothing {α : Type} : Offset16 α := ⟨none⟩

/-- The low-level LangSys table: a `lookupOrderOffset` (always 0), the
required feature index with 0xFFFF meaning absent, and the feature
index list. -/
structure LangSys where
  lookupOrderOffset : Nat
  requiredFeatureIndex : Nat
  featureIndices : List Nat
deriving Repr, DecidableEq

/-- The semantic LanguageSystem: an explicit optional required feature
and the feature indices. -/
structure LanguageSystem where
  required_feature : Option Nat
  feature_indices : List Nat
deriving Repr, DecidableEq

/-- `From<&LangSys> for LanguageSystem`: 0xFFFF decodes to `none`, any
other index to `some`; feature indices are widened element-wise. -/
def LanguageSystem.fromLangSys (langsys : LangSys) : LanguageSystem :=
  { required_feature :=
      if langsys.requiredFeatureIndex ≠ 0xFFFF then
        some langsys.requiredFeatureIndex
      else
        none,
    feature_indices := langsys.featureIndices }

/-- `From<&LanguageSystem> for LangSys`: an absent required feature
re-encodes to exactly 0xFFFF, and the `as u16` casts of the source are
the `% 65536` reductions. -/
def LangSys.fromLanguageSystem (ls : LanguageSystem) : LangSys :=
  { lookupOrderOffset := 0,
    requiredFeatureIndex := (ls.required_feature.getD 0xFFFF) % 65536,
    featureIndices := ls.feature_indices.map (· % 65536) }

/-- Insertion into a `BTreeMap` modelled as a strictly key-sorted
association list: the list order is the key order, matching the map's
sorted iteration order; inserting an existing key replaces its
value. -/
def btreeInsert {α : Type} (k : Nat) (v : α) :
    List (Nat × α) → List (Nat × α)
  | [] => [(k, v)]
  | (k', v') :: rest =>
    if k < k' then (k, v) :: (k', v') :: rest
    else if k = k' then (k, v) :: rest
    else (k', v') :: btreeInsert k v rest

/-- A semantic Script: optional default language system plus the
tag-keyed language-system map (a `BTreeMap` in the source, here its
sorted association list). -/
structure Script where
  default_language_system : Option LanguageSystem
  language_systems : List (Nat × LanguageSystem)
deriving Repr, DecidableEq

/-- A semantic ScriptList: the tag-keyed script map. -/
structure ScriptList where
  scripts : List (Nat × Script)
deriving Repr, DecidableEq

/-- A low-level LangSysRecord: tag plus offset to the LangSys. -/
structure LangSysRecord where
  langSysTag : Nat
  langSys : Offset16 LangSys
deriving Repr, DecidableEq

/-- The low-level Script table. -/
structure ScriptLowLevel where
  defaultLangSys : Offset16 LangSys
  langSysRecords : List LangSysRecord
deriving Repr, DecidableEq

/-- A low-level ScriptRecord: tag plus offset to the script. -/
structure ScriptRecord where
  scriptTag : Nat
  script : Offset16 ScriptLowLevel
deriving Repr, DecidableEq

/-- The low-level ScriptList table. -/
structure ScriptListLowLevel where
  scriptRecords : List ScriptRecord
deriving Repr, DecidableEq

/-- `From<&Script> for ScriptLowLevel`: the language-system records
are emitted by iterating the map, hence in its key order. -/
def Script.toLowLevel (script : Script) : ScriptLowLevel :=
  { defaultLangSys :=
      match script.default_language_system with
      | some ls => Offset16.to (LangSys.fromLanguageSystem ls)
      | none => Offset16.to_nothing,
    langSysRecords :=
      script.language_systems.map (fun kv =>
        { langSysTag := kv.1,
          langSys := Offset16.to (LangSys.fromLanguageSystem kv.2) }) }

/-- `From<&ScriptList> for ScriptListLowLevel`: script records are
emitted by iterating the map, hence in its key order. -/
def ScriptList.toLowLevel (sl : ScriptList) : ScriptListLowLevel :=
  { scriptRecords :=
      sl.scripts.map (fun kv =>
        { scriptTag := kv.1, script := Offset16.to kv.2.toLowLevel }) }

/-- A Script whose language-system map was populated by inserting the
given (tag, language system) pairs in the given, arbitrary order. -/
def Script.ofInsertions (dls : Option LanguageSystem)
    (entries : List (Nat × LanguageSystem)) : Script :=
  { default_language_system := dls,
    language_systems :=
      entries.foldl (fun m kv => btreeInsert kv.1 kv.2 m) [] }

/-- A ScriptList populated by inserting the given (tag, script) pairs
in the given, arbitrary order. -/
def ScriptList.ofInsertions (entries : List (Nat × Script)) : ScriptList :=
  { scripts := entries.foldl (fun m kv => btreeInsert kv.1 kv.2 m) [] }

/-! ## Unbounded sequence codec (`impl Deserialize for Vec<T>`) -/

/-- An element decoder as seen through a `&mut ReaderContext`: it
always hands back the post-call reader state, whether it succeeded or
failed, so that bytes consumed by a failed partial element stay
consumed. -/
def ElementDe (α : Type) : Type :=
  ReaderContext → Except DeserializationError α × ReaderContext

/-- The loop body of `Vec<T>::from_bytes`: decode elements until one
fails, keep the successes, and leave the reader wherever the failing
element left it.  The source loop has no fuel; the `fuel` argument
makes the recursion structural and is irrelevant once it dominates the
remaining buffer (see `vec_from_bytes_spec`). -/
def vecDeLoop {α : Type} (de : ElementDe α) :
    Nat → ReaderContext → List α × ReaderContext
  | 0, c => ([], c)
  | fuel + 1, c =>
    match de c with
    | (.ok x, c') =>
      let r := vecDeLoop de fuel c'
      (x :: r.1, r.2)
    | (.error _, c') => ([], c')

/-- `Vec<T>::from_bytes`: the loop's result, always wrapped in `Ok`. -/
def vecFromBytes {α : Type} (de : ElementDe α) (fuel : Nat)
    (c : ReaderContext) :
    Except DeserializationError (List α × ReaderContext) :=
  .ok (vecDeLoop de fuel c)

/-- The result relation of the unbounded sequence decode: the element
list is the maximal run of successful decodes from the start state,
and the final state is the post-state of the first failing decode. -/
inductive DecodesGreedily {α : Type} (de : ElementDe α) :
    ReaderContext → List α → ReaderContext → Prop
  | fail {c c' : ReaderContext} {e : DeserializationError}
      (h : de c = (.error e, c')) : DecodesGreedily de c [] c'
  | cons {c c₁ c' : ReaderContext} {x : α} {xs : List α}
      (h : de c = (.ok x, c₁)) (ih : DecodesGreedily de c₁ xs c') :
      DecodesGreedily de c (x :: xs) c'

/-- The `u16` element decoder seen as an `ElementDe`: on failure the
reader is untouched (the bounds check precedes any mutation). -/
def u16Step : ElementDe Nat := fun c =>
  match de_u16 c with
  | .ok (x, c') => (.ok x, c')
  | .error e => (.error e, c)

/-! ## Offset-graph resolver -/

/-- The declared width of a pending offset field. -/
inductive OffsetWidth where
  | w16
  | w32
deriving Repr, DecidableEq

/-- Byte width of a reserved offset placeholder. -/
def OffsetWidth.bytes : OffsetWidth → Nat
  | .w16 => 2
  | .w32 => 4

/-- Modelled from the spec: an offset marker of the resolver
(`otspec::offsetmanager` is not among the provided sources): a
declared width and the arena index of its target node, following the
spec's arena design note. -/
structure OffsetMark where
  width : OffsetWidth
  target : Nat
deriving Repr, DecidableEq

/-- Modelled from the spec: a table node — a fixed-size body plus
offset markers to child nodes, held in an arena addressed by index. -/
structure TableNode where
  bodySize : Nat
  markers : List OffsetMark
deriving Repr, DecidableEq

/-- The failure modes of resolution.  `fuelExhausted` is the
recursion-budget guard of the model's depth-first traversal; it is
unreachable whenever the fuel dominates the graph's depth. -/
inductive ResolveError where
  | cyclicGraph
  | widthOverflow
  | badIndex
  | fuelExhausted
deriving Repr, DecidableEq

/-- The serialized size of a node: its fixed body plus one reserved
placeholder per marker, computable independently of child placement. -/
def TableNode.size (n : TableNode) : Nat :=
  n.bodySize + (n.markers.map (fun m => m.width.bytes)).sum

mutual

/-- Modelled from the spec: depth-first pre-order traversal from a
node.  A back-reference to an already-active ancestor fails with
`CyclicGraph`; an already-placed node (a shared subtable) is not
placed again; otherwise the node is appended to the placement order
and its children are traversed. -/
def dfsNode (arena : List TableNode) :
    Nat → List Nat → Nat → List Nat → Except ResolveError (List Nat)
  | 0, _, _, _ => .error .fuelExhausted
  | fuel + 1, active, idx, order =>
    if idx ∈ active then .error .cyclicGraph
    else if idx ∈ order then .ok order
    else
      match arena.get? idx with
      | none => .error .badIndex
      | some node =>
        dfsChildren arena fuel (idx :: active) (node.markers.map (·.target))
          (order ++ [idx])
termination_by fuel _ _ _ => (fuel, 0)

/-- Traverse a node's children left to right, threading the placement
order. -/
def dfsChildren (arena : List TableNode) :
    Nat → List Nat → List Nat → List Nat → Except ResolveError (List Nat)
  | _, _, [], order => .ok order
  | fuel, active, t :: rest, order =>
    match dfsNode arena fuel active t order with
    | .error e => .error e
    | .ok order' => dfsChildren arena fuel active rest order'
termination_by fuel _ ts _ => (fuel, ts.length + 1)

end

/-- Lay nodes out in traversal order, accumulating each node's start
address from the sizes of the nodes placed before it. -/
def layoutStarts (arena : List TableNode) :
    List Nat → Nat → List (Nat × Nat)
  | [], _ => []
  | idx :: rest, addr =>
    (idx, addr) ::
      layoutStarts arena rest
        (addr + match arena.get? idx with
                | some node => node.size
                | none => 0)

/-- Look up a placed node's start address. -/
def lookupStart (starts : List (Nat × Nat)) (i : Nat) : Option Nat :=
  (starts.find? (fun p => p.1 = i)).map (·.2)

/-- Resolve the markers of one parent node: each marker's value is the
exact byte distance `child.start - parent.start`; a 16-bit marker
whose value exceeds 65535 fails with `WidthOverflow` instead of being
truncated. -/
def resolveMarkerList (starts : List (Nat × Nat)) (parentStart : Nat) :
    List OffsetMark → Except ResolveError (List (OffsetWidth × Int))
  | [] => .ok []
  | m :: rest =>
    match lookupStart starts m.target with
    | none => .error .badIndex
    | some childStart =>
      let value : Int := (childStart : Int) - (parentStart : Int)
      if m.width = .w16 ∧ value > 65535 then
        .error .widthOverflow
      else
        match resolveMarkerList starts parentStart rest with
        | .error e => .error e
        | .ok vs => .ok ((m.width, value) :: vs)

/-- Resolve all markers of all placed nodes, in placement order. -/
def resolveAllMarkers (arena : List TableNode) (starts : List (Nat × Nat)) :
    List Nat → Except ResolveError (List (OffsetWidth × Int))
  | [] => .ok []
  | idx :: rest =>
    match arena.get? idx, lookupStart starts idx with
    | some node, some parentStart =>
      match resolveMarkerList starts parentStart node.markers with
      | .error e => .error e
      | .ok vs =>
        match resolveAllMarkers arena starts rest with
        | .error e => .error e
        | .ok vs' => .ok (vs ++ vs')
    | _, _ => .error .badIndex

/-- Modelled from the spec: the offset-graph resolver — traverse from
the root building the placement order, lay the nodes out, and value
every marker, failing rather than truncating an overflowing 16-bit
field.  Returns the (width, value) pair of every resolved marker. -/
def resolveGraph (arena : List TableNode) (root : Nat) :
    Except ResolveError (List (OffsetWidth × Int)) :=
  match dfsNode arena (arena.length + 1) [] root [] with
  | .error e => .error e
  | .ok order => resolveAllMarkers arena (layoutStarts arena order 0) order

/-- A placed node is closed in a placement order when all its marker
targets are also placed. -/
def ClosedIn (arena : List TableNode) (order : List Nat) (j : Nat) : Prop :=
  ∀ node m, arena.get? j = some node → m ∈ node.markers →
    m.target ∈ order

/-! ## Non-hinted-font fix (fonttools-cli ttf-fix-non-hinted) -/

/-- The flag bits of `RangeGaspBehaviorFlags`. -/
def GASP_GRIDFIT : Nat := 1

/-- Greyscale-rendering flag bit. -/
def GASP_DOGRAY : Nat := 2

/-- Symmetric-gridfit flag bit (ClearType). -/
def GASP_SYMMETRIC_GRIDFIT : Nat := 4

/-- Symmetric-smoothing flag bit (ClearType). -/
def GASP_SYMMETRIC_SMOOTHING : Nat := 8

/-- One (maxPPEM, behaviour flags) range of the gasp table. -/
structure GaspRecord where
  rangeMaxPPEM : Nat
  rangeGaspBehavior : Nat
deriving Repr, DecidableEq

/-- The gasp table: a version and its ranges. -/
structure GaspTable where
  version : Nat
  gaspRanges : List GaspRecord
deriving Repr, DecidableEq

/-- A table held by a font: either a parsed gasp table or an
uninterpreted byte blob. -/
inductive TableContent where
  | gaspContent (g : GaspTable)
  | raw (bytes : List Nat)
deriving Repr, DecidableEq

/-- Modelled from the spec: the font table directory offered to the
external tool (the fonttools `Font` API is outside the core sources),
supporting exactly the contract the spec names — a tag-presence query
and table insertion.  Modelled as an association list from 4-byte tags
to contents. -/
abbrev Font : Type := List (String × TableContent)

/-- Modelled from the spec: `font.tables.contains(tag)`. -/
def Font.containsTag (f : Font) (tag : String) : Bool :=
  f.any (fun kv => kv.1 = tag)

/-- Modelled from the spec: `font.tables.insert` / `insert_raw` —
replace the tagged table when present, append it otherwise. -/
def Font.insertTable (f : Font) (tag : String) (content : TableContent) :
    Font :=
  if f.containsTag tag then
    f.map (fun kv => if kv.1 = tag then (tag, content) else kv)
  else
    f ++ [(tag, content)]

/-- Modelled from the spec: table lookup in the directory. -/
def Font.lookupTag (f : Font) (tag : String) : Option TableContent :=
  (f.find? (fun kv => kv.1 = tag)).map (fun kv => kv.2)

/-- The gasp table constructed by `ttf-fix-non-hinted`: version 1 and
a single range with maxPPEM 65535 and all four behaviour flags. -/
def fixGaspTable : GaspTable :=
  { version := 1,
    gaspRanges := [{ rangeMaxPPEM := 65535,
                     rangeGaspBehavior :=
                       Nat.lor GASP_SYMMETRIC_SMOOTHING
                         (Nat.lor GASP_DOGRAY
                           (Nat.lor GASP_GRIDFIT GASP_SYMMETRIC_GRIDFIT)) }] }

/-- The fixed prep program inserted by `ttf-fix-non-hinted`. -/
def fixPrepBytes : List Nat :=
  [0xb8, 0x01, 0xff, 0x85, 0xb0, 0x04, 0x8d]

/-- The table mutation performed by `ttf-fix-non-hinted`'s `main`
between opening and saving the font: insert the gasp table when the
font lacks one, then unconditionally insert the raw prep program. -/
def fixNonHinted (infont : Font) : Font :=
  let f :=
    if infont.containsTag "gasp" then
      infont
    else
      infont.insertTable "gasp" (.gaspContent fixGaspTable)
  f.insertTable "prep" (.raw fixPrepBytes)

/-- Packaging of one insertion instruction for a script list whose
scripts are themselves populated by insertions. -/
def scriptEntryBuild
    (e : Nat × Option LanguageSystem × List (Nat × LanguageSystem)) :
    Nat × Script :=
  (e.1, Script.ofInsertions e.2.1 e.2.2)

/-! ## Theorems: cursor operations -/

/-- C5: for any reader whose origin stack is nonempty, `follow_offset`
reports an error (it returns, rather than panicking or touching memory)
exactly when the destination `top + offset` exceeds the buffer length,
and otherwise succeeds with the position set to exactly
`top + offset`. -/
theorem c5_follow_offset (c : ReaderContext) (offset top : Nat)
    (rest : List Nat) (hstack : c.stack = top :: rest) :
    (top + offset > c.input.length →
      c.follow_offset offset =
        some (.error ⟨"Offset fell off end of data"⟩)) ∧
    (top + offset ≤ c.input.length →
      c.follow_offset offset = some (.ok { c with ptr := top + offset })) := by
  have htop : c.top_of_table = some top := by
    simp [ReaderContext.top_of_table, hstack]
  constructor
  · intro h
    simp [ReaderContext.follow_offset, htop, h]
  · intro h
    simp [ReaderContext.follow_offset, htop, Nat.not_lt.mpr h]

/-- Witness for C5 at concrete inputs: a destination past a 2-byte
buffer reports the error, an in-range destination moves the cursor. -/
theorem c5_witness :
    (ReaderContext.new [0x51, 0x52]).follow_offset 3 =
      some (.error ⟨"Offset fell off end of data"⟩) ∧
    (ReaderContext.new [0x51, 0x52]).follow_offset 1 =
      some (.ok { input := [0x51, 0x52], ptr := 1, stack := [0] }) :=
  ⟨(c5_follow_offset (ReaderContext.new [0x51, 0x52]) 3 0 [] rfl).1
      (by decide),
   (c5_follow_offset (ReaderContext.new [0x51, 0x52]) 1 0 [] rfl).2
      (by decide)⟩

/-- C8 counterexample: the first `pop` on a freshly created reader
does not panic — it succeeds, consuming the initial origin 0 that
`new` seeds the stack with — contradicting the claim that any
unmatched pop, including the first one on a fresh reader, is fatal. -/
theorem c8_counterexample :
    (ReaderContext.new [0x00]).pop =
      some { input := [0x00], ptr := 0, stack := [] } := rfl

/-- C8 (amended): `pop` panics exactly when the origin stack is
empty; since `new` seeds the stack with one initial origin, the first
unmatched pop on a fresh reader succeeds and only the second one
panics. -/
theorem c8_pop_semantics (c : ReaderContext) :
    (c.stack = [] → c.pop = none) ∧
    (∀ input : List Nat, (ReaderContext.new input).pop =
      some { input := input, ptr := 0, stack := [] }) ∧
    (∀ input : List Nat,
      ((ReaderContext.new input).pop).bind ReaderContext.pop = none) := by
  refine ⟨fun h => ?_, fun input => rfl, fun input => rfl⟩
  simp [ReaderContext.pop, h]

/-- Witness for C8 at concrete inputs. -/
theorem c8_witness :
    (({ input := [], ptr := 0, stack := [] } : ReaderContext).pop = none) ∧
    ((ReaderContext.new [7]).pop =
      some { input := [7], ptr := 0, stack := [] }) ∧
    (((ReaderContext.new [7]).pop).bind ReaderContext.pop = none) :=
  ⟨(c8_pop_semantics { input := [], ptr := 0, stack := [] }).1 rfl,
   (c8_pop_semantics { input := [], ptr := 0, stack := [] }).2.1 [7],
   (c8_pop_semantics { input := [], ptr := 0, stack := [] }).2.2 [7]⟩

/-! ## Theorems: layout conversions -/

/-- C3: LangSys to LanguageSystem maps the 0xFFFF sentinel to `none`
and any other required-feature index to `some`, keeps the feature
indices element-wise, and the reverse conversion restores the exact
sentinel and the original `u16` fields, so the round trip is the
identity on the required-feature field and the feature indices. -/
theorem c3_langsys_roundtrip (l : LangSys)
    (hreq : l.requiredFeatureIndex < 65536)
    (hfeat : ∀ x ∈ l.featureIndices, x < 65536) :
    ((LanguageSystem.fromLangSys l).required_feature =
      if l.requiredFeatureIndex = 0xFFFF then none
      else some l.requiredFeatureIndex) ∧
    ((LanguageSystem.fromLangSys l).feature_indices = l.featureIndices) ∧
    ((LangSys.fromLanguageSystem
        (LanguageSystem.fromLangSys l)).requiredFeatureIndex =
      l.requiredFeatureIndex) ∧
    ((LangSys.fromLanguageSystem
        (LanguageSystem.fromLangSys l)).featureIndices = l.featureIndices) ∧
    (∀ ls : LanguageSystem, ls.required_feature = none →
      (LangSys.fromLanguageSystem ls).requiredFeatureIndex = 0xFFFF) ∧
    (∀ ls : LanguageSystem, ∀ v, ls.required_feature = some v → v < 65536 →
      (LangSys.fromLanguageSystem ls).requiredFeatureIndex = v) := by
  have hmap : l.featureIndices.map (· % 65536) = l.featureIndices := by
    conv_rhs => rw [← List.map_id l.featureIndices]
    exact List.map_congr_left (fun x hx => Nat.mod_eq_of_lt (hfeat x hx))
  refine ⟨?_, rfl, ?_, ?_, ?_, ?_⟩
  · by_cases h : l.requiredFeatureIndex = 0xFFFF <;>
      simp [LanguageSystem.fromLangSys, h]
  · by_cases h : l.requiredFeatureIndex = 0xFFFF <;>
      simp [LanguageSystem.fromLangSys, LangSys.fromLanguageSystem, h,
        Nat.mod_eq_of_lt hreq]
  · simpa [LanguageSystem.fromLangSys, LangSys.fromLanguageSystem] using hmap
  · intro ls h
    simp [LangSys.fromLanguageSystem, h]
  · intro ls v h hv
    simp [LangSys.fromLanguageSystem, h, Nat.mod_eq_of_lt hv]

/-- Witness for C3 at a concrete LangSys with the sentinel absent and
present. -/
theorem c3_witness :
    ((LanguageSystem.fromLangSys ⟨0, 5, [1, 2]⟩).required_feature =
      if (5 : Nat) = 0xFFFF then none else some 5) ∧
    ((LangSys.fromLanguageSystem
        (LanguageSystem.fromLangSys ⟨0, 5, [1, 2]⟩)).requiredFeatureIndex = 5) ∧
    ((LangSys.fromLanguageSystem ⟨none, []⟩).requiredFeatureIndex = 0xFFFF) :=
  ⟨(c3_langsys_roundtrip ⟨0, 5, [1, 2]⟩ (by decide) (by decide)).1,
   (c3_langsys_roundtrip ⟨0, 5, [1, 2]⟩ (by decide) (by decide)).2.2.1,
   (c3_langsys_roundtrip ⟨0, 5, [1, 2]⟩ (by decide)
      (by decide)).2.2.2.2.1 ⟨none, []⟩ rfl⟩

/-! ## Theorems: name-table encoding selection -/

/-- C6 counterexample: on platform 3, encoding id 6 makes
`get_encoding` hit `unimplemented!()` — modelled by `none` — so
decoding a name table holding such a record panics instead of
returning the reported, recoverable error the claim asserts. -/
theorem c6_counterexample :
    get_encoding 3 6 = none ∧
    nameDeserialize encoding6TableBytes = .panic := by
  exact ⟨rfl, by decide⟩

/-- C6 (amended): the platform-3 encoding selection is the fixed pure
table of the claim (ids 0 and 1 select UTF-16BE, 2 Windows-31J, 3 GBK,
4 Big5, 5 Windows-949) and every unmapped id at least 7 defaults to
UTF-16BE; id 6, however, is a fatal `unimplemented!()` panic, not a
reported error, and a name table selecting it panics. -/
theorem c6_platform3_selection :
    get_encoding 3 0 = some .utf16be ∧ get_encoding 3 1 = some .utf16be ∧
    get_encoding 3 2 = some .windows31j ∧ get_encoding 3 3 = some .gbk ∧
    get_encoding 3 4 = some .big5 ∧ get_encoding 3 5 = some .windows949 ∧
    (∀ eid : Nat, 7 ≤ eid → get_encoding 3 eid = some .utf16be) ∧
    get_encoding 3 6 = none ∧
    nameDeserialize encoding6TableBytes = .panic := by
  refine ⟨rfl, rfl, rfl, rfl, rfl, rfl, ?_, rfl, by decide⟩
  intro eid h
  obtain ⟨k, rfl⟩ : ∃ k, eid = k + 7 := ⟨eid - 7, by omega⟩
  rfl

/-- Witness for C6 at the first unmapped id. -/
theorem c6_witness : get_encoding 3 7 = some .utf16be :=
  c6_platform3_selection.2.2.2.2.2.2.1 7 (by decide)

/-! ## Theorems: non-hinted-font fix -/

/-- Lookup in a table directory, one entry at a time. -/
theorem lookupTag_cons (hd : String × TableContent) (tl : Font)
    (tg : String) :
    Font.lookupTag (hd :: tl) tg =
      if hd.1 = tg then some hd.2 else Font.lookupTag tl tg := by
  unfold Font.lookupTag
  by_cases hg : hd.1 = tg
  · rw [List.find?_cons_of_pos _ (by simp [hg]), if_pos hg]
    simp
  · rw [List.find?_cons_of_neg _ (by simp [hg]), if_neg hg]

/-- Appending a fresh entry makes its tag found. -/
theorem lookupTag_append_self (f : Font) (tag : String) (x : TableContent)
    (h : f.containsTag tag = false) :
    Font.lookupTag (f ++ [(tag, x)]) tag = some x := by
  induction f with
  | nil => rw [List.nil_append, lookupTag_cons]; simp
  | cons hd tl ih =>
    simp only [Font.containsTag, List.any_cons, Bool.or_eq_false_iff] at h
    rw [List.cons_append, lookupTag_cons, if_neg (by simpa using h.1)]
    exact ih (by simpa [Font.containsTag] using h.2)

/-- Replacing a contained tag in place makes its tag map to the new
content. -/
theorem lookupTag_replace_self (f : Font) (tag : String) (x : TableContent)
    (h : f.containsTag tag = true) :
    Font.lookupTag
      (f.map (fun kv => if kv.1 = tag then (tag, x) else kv)) tag =
      some x := by
  induction f with
  | nil => simp [Font.containsTag] at h
  | cons hd tl ih =>
    rw [List.map_cons]
    by_cases hk : hd.1 = tag
    · rw [if_pos hk, lookupTag_cons]
      simp
    · rw [if_neg hk, lookupTag_cons, if_neg hk]
      exact ih (by simpa [Font.containsTag, hk] using h)

/-- Appending an entry leaves other tags' lookups alone. -/
theorem lookupTag_append_other (f : Font) (tag tg : String)
    (x : TableContent) (h : tg ≠ tag) :
    Font.lookupTag (f ++ [(tag, x)]) tg = f.lookupTag tg := by
  induction f with
  | nil =>
    rw [List.nil_append, lookupTag_cons, if_neg (fun hh => h hh.symm)]
  | cons hd tl ih =>
    rw [List.cons_append, lookupTag_cons, lookupTag_cons]
    by_cases hg : hd.1 = tg
    · rw [if_pos hg, if_pos hg]
    · rw [if_neg hg, if_neg hg, ih]

/-- In-place replacement of a tag leaves other tags' lookups alone. -/
theorem lookupTag_replace_other (f : Font) (tag tg : String)
    (x : TableContent) (h : tg ≠ tag) :
    Font.lookupTag
      (f.map (fun kv => if kv.1 = tag then (tag, x) else kv)) tg =
      f.lookupTag tg := by
  induction f with
  | nil => rfl
  | cons hd tl ih =>
    rw [List.map_cons]
    by_cases hk : hd.1 = tag
    · rw [if_pos hk, lookupTag_cons, lookupTag_cons,
        if_neg (fun hh : (tag, x).1 = tg => h hh.symm),
        if_neg (fun hh => h (hk ▸ hh).symm), ih]
    · rw [if_neg hk, lookupTag_cons, lookupTag_cons]
      by_cases hg : hd.1 = tg
      · rw [if_pos hg, if_pos hg]
      · rw [if_neg hg, if_neg hg, ih]

/-- After insertion, looking up the inserted tag finds the inserted
content. -/
theorem lookupTag_insert_self (f : Font) (tag : String) (x : TableContent) :
    (f.insertTable tag x).lookupTag tag = some x := by
  unfold Font.insertTable
  by_cases h : f.containsTag tag = true
  · rw [if_pos (by simpa using h)]
    exact lookupTag_replace_self f tag x h
  · rw [if_neg (by simpa using h)]
    exact lookupTag_append_self f tag x (by simpa using h)

/-- Insertion does not disturb the lookup of a different tag. -/
theorem lookupTag_insert_other (f : Font) (tag tg : String)
    (x : TableContent) (h : tg ≠ tag) :
    (f.insertTable tag x).lookupTag tg = f.lookupTag tg := by
  unfold Font.insertTable
  by_cases hc : f.containsTag tag = true
  · rw [if_pos (by simpa using hc)]
    exact lookupTag_replace_other f tag tg x h
  · rw [if_neg (by simpa using hc)]
    exact lookupTag_append_other f tag tg x h

/-- C10 counterexample: a font that already carries a gasp table is
not left byte-for-byte unchanged by the fix — the tool still inserts
its raw prep program unconditionally. -/
theorem c10_counterexample :
    fixNonHinted [("gasp", .gaspContent ⟨0, []⟩)] ≠
      [("gasp", .gaspContent ⟨0, []⟩)] ∧
    Font.containsTag [("gasp", .gaspContent ⟨0, []⟩)] "gasp" = true := by
  exact ⟨by decide, by decide⟩

/-- C10 (amended): on a font lacking gasp the fix inserts a gasp
table with version 1 and exactly one range with maxPPEM 65535 and all
four behaviour flags set; a font already carrying gasp keeps its gasp
table unchanged; in both cases the fix also installs the fixed raw
prep program, so the font as a whole is not in general unchanged. -/
theorem c10_fix_non_hinted (f : Font) :
    (f.containsTag "gasp" = false →
      (fixNonHinted f).lookupTag "gasp" =
        some (.gaspContent fixGaspTable)) ∧
    (f.containsTag "gasp" = true →
      (fixNonHinted f).lookupTag "gasp" = f.lookupTag "gasp") ∧
    (fixNonHinted f).lookupTag "prep" = some (.raw fixPrepBytes) ∧
    fixGaspTable.version = 1 ∧
    fixGaspTable.gaspRanges =
      [{ rangeMaxPPEM := 65535,
         rangeGaspBehavior :=
           Nat.lor GASP_SYMMETRIC_SMOOTHING (Nat.lor GASP_DOGRAY
             (Nat.lor GASP_GRIDFIT GASP_SYMMETRIC_GRIDFIT)) }] := by
  have hgp : ("gasp" : String) ≠ "prep" := by decide
  refine ⟨fun h => ?_, fun h => ?_, ?_, rfl, rfl⟩
  · rw [fixNonHinted]
    simp only [h, Bool.false_eq_true, if_false]
    rw [lookupTag_insert_other _ _ _ _ hgp, lookupTag_insert_self]
  · rw [fixNonHinted]
    simp only [h, if_true]
    rw [lookupTag_insert_other _ _ _ _ hgp]
  · rw [fixNonHinted]
    by_cases h : f.containsTag "gasp" <;>
      simp only [h, if_true, Bool.false_eq_true, if_false] <;>
      rw [lookupTag_insert_self]

/-! ## Theorems: truncated string pools -/

/-- A successful `u16` decode advances the position by exactly two
in-bounds bytes and touches nothing else. -/
theorem de_u16_ok_state (c c' : ReaderContext) (x : Nat)
    (h : de_u16 c = .ok (x, c')) :
    c' = { c with ptr := c.ptr + 2 } ∧ c.ptr + 2 ≤ c.input.length := by
  unfold de_u16 ReaderContext.consume ReaderContext.consume_or_peek at h
  by_cases hb : c.ptr + 2 > c.input.length
  · rw [if_pos hb] at h
    exact absurd h (by simp)
  · rw [if_neg hb] at h
    refine ⟨?_, Nat.not_lt.mp hb⟩
    rcases hx : (c.input.drop c.ptr).take 2 with _ | ⟨b1, _ | ⟨b0, rest⟩⟩ <;>
      rw [hx] at h
    · exact absurd h (by simp)
    · exact absurd h (by simp)
    · cases rest with
      | nil =>
        simp only [Except.ok.injEq, Prod.mk.injEq] at h
        exact h.2.symm
      | cons y ys => exact absurd h (by simp)

/-- A successful byte decode advances the position by one in-bounds
byte and touches nothing else. -/
theorem de_u8_ok_state (c c' : ReaderContext) (x : Nat)
    (h : de_u8 c = .ok (x, c')) :
    c' = { c with ptr := c.ptr + 1 } ∧ c.ptr + 1 ≤ c.input.length := by
  unfold de_u8 ReaderContext.consume ReaderContext.consume_or_peek at h
  by_cases hb : c.ptr + 1 > c.input.length
  · rw [if_pos hb] at h
    exact absurd h (by simp)
  · rw [if_neg hb] at h
    refine ⟨?_, Nat.not_lt.mp hb⟩
    rcases hx : (c.input.drop c.ptr).take 1 with _ | ⟨b, rest⟩ <;>
      rw [hx] at h
    · exact absurd h (by simp)
    · cases rest with
      | nil =>
        simp only [Except.ok.injEq, Prod.mk.injEq] at h
        exact h.2.symm
      | cons y ys => exact absurd h (by simp)

/-- A successful counted byte read preserves the buffer and origin
stack, and reads within bounds unless it read nothing. -/
theorem de_counted_u8_ok_state :
    ∀ (n : Nat) (c c' : ReaderContext) (xs : List Nat),
    de_counted de_u8 n c = .ok (xs, c') →
    c'.input = c.input ∧ c'.stack = c.stack ∧
      (n = 0 ∨ c.ptr + n ≤ c.input.length) := by
  intro n
  induction n with
  | zero =>
    intro c c' xs h
    simp only [de_counted, Except.ok.injEq, Prod.mk.injEq] at h
    rw [← h.2]
    exact ⟨rfl, rfl, .inl rfl⟩
  | succ m ih =>
    intro c c' xs h
    unfold de_counted at h
    rcases h1 : de_u8 c with e | ⟨x, c₁⟩ <;> rw [h1] at h <;> dsimp only at h
    · exact absurd h (by simp)
    · rcases h2 : de_counted de_u8 m c₁ with e | ⟨ys, c₂⟩ <;>
        rw [h2] at h <;> dsimp only at h
      · exact absurd h (by simp)
      · simp only [Except.ok.injEq, Prod.mk.injEq] at h
        obtain ⟨hc₁, hb⟩ := de_u8_ok_state c c₁ x h1
        obtain ⟨hin, hst, hlen⟩ := ih c₁ c₂ ys h2
        subst hc₁
        rw [← h.2]
        refine ⟨hin, hst, .inr ?_⟩
        rcases hlen with h0 | hle
        · omega
        · have := by simpa using hle
          omega

/-- If some parsed record demands a nonempty read past the end of the
buffer and every record's platform/encoding pair is supported, the
string-reading loop reports a deserialization error: no panic and no
out-of-bounds access. -/
theorem readNameStrings_err :
    ∀ (irs : List NameRecordInternal) (c : ReaderContext) (T : Nat)
      (s' : List Nat),
    c.stack = T :: s' →
    (∀ ir ∈ irs, (get_encoding ir.platformID ir.encodingID).isSome = true) →
    (∃ ir ∈ irs,
      T + ir.stringOffset + ir.length > c.input.length ∧ 0 < ir.length) →
    ∃ e, readNameStrings irs c = .err e := by
  intro irs
  induction irs with
  | nil =>
    intro c T s' _ _ hover
    simp at hover
  | cons ir rest ih =>
    intro c T s' hstack hsupp hover
    have htop : c.top_of_table = some T := by
      simp [ReaderContext.top_of_table, hstack]
    rcases hread : de_counted de_u8 ir.length
        { c with ptr := T + ir.stringOffset } with e | ⟨bs, c₂⟩
    · exact ⟨e, by simp [readNameStrings, htop, hread]⟩
    · obtain ⟨hin, hst, hlen⟩ :=
        de_counted_u8_ok_state ir.length _ c₂ bs hread
      have hsome := hsupp ir (List.mem_cons_self ir rest)
      rcases henc : get_encoding ir.platformID ir.encodingID with _ | enc
      · rw [henc] at hsome
        simp at hsome
      · have hover' : ∃ ir' ∈ rest,
            T + ir'.stringOffset + ir'.length > c₂.input.length ∧
              0 < ir'.length := by
          obtain ⟨ir₀, hmem, hgt, hpos⟩ := hover
          rcases List.mem_cons.mp hmem with heq | hmem'
          · exfalso
            subst heq
            rcases hlen with h0 | hle
            · omega
            · simp only [ReaderContext.ptr, ReaderContext.input] at hle
              omega
          · exact ⟨ir₀, hmem', by rw [hin]; exact hgt, hpos⟩
        obtain ⟨e, he⟩ := ih c₂ T s' (by rw [hst, hstack])
          (fun x hx => hsupp x (List.mem_cons_of_mem ir hx)) hover'
        exact ⟨e, by simp [readNameStrings, htop, hread, henc, he]⟩

/-- Reading one fixed name record preserves the buffer and origin
stack. -/
theorem deNameRecordInternal_ok_state (c c' : ReaderContext)
    (ir : NameRecordInternal) (h : deNameRecordInternal c = .ok (ir, c')) :
    c'.input = c.input ∧ c'.stack = c.stack := by
  unfold deNameRecordInternal at h
  rcases h1 : de_u16 c with e | ⟨v1, c1⟩ <;> rw [h1] at h <;> dsimp only at h
  · exact absurd h (by simp)
  rcases h2 : de_u16 c1 with e | ⟨v2, c2⟩ <;> rw [h2] at h <;> dsimp only at h
  · exact absurd h (by simp)
  rcases h3 : de_u16 c2 with e | ⟨v3, c3⟩ <;> rw [h3] at h <;> dsimp only at h
  · exact absurd h (by simp)
  rcases h4 : de_u16 c3 with e | ⟨v4, c4⟩ <;> rw [h4] at h <;> dsimp only at h
  · exact absurd h (by simp)
  rcases h5 : de_u16 c4 with e | ⟨v5, c5⟩ <;> rw [h5] at h <;> dsimp only at h
  · exact absurd h (by simp)
  rcases h6 : de_u16 c5 with e | ⟨v6, c6⟩ <;> rw [h6] at h <;> dsimp only at h
  · exact absurd h (by simp)
  simp only [Except.ok.injEq, Prod.mk.injEq] at h
  obtain ⟨s1, _⟩ := de_u16_ok_state _ _ _ h1
  obtain ⟨s2, _⟩ := de_u16_ok_state _ _ _ h2
  obtain ⟨s3, _⟩ := de_u16_ok_state _ _ _ h3
  obtain ⟨s4, _⟩ := de_u16_ok_state _ _ _ h4
  obtain ⟨s5, _⟩ := de_u16_ok_state _ _ _ h5
  obtain ⟨s6, _⟩ := de_u16_ok_state _ _ _ h6
  subst s1 s2 s3 s4 s5 s6
  rw [← h.2]
  exact ⟨rfl, rfl⟩

/-- A counted decode whose element decoder preserves the buffer and
origin stack preserves them too. -/
theorem de_counted_preserves {α : Type}
    (de : ReaderContext → Except DeserializationError (α × ReaderContext))
    (hde : ∀ c x c', de c = .ok (x, c') →
      c'.input = c.input ∧ c'.stack = c.stack) :
    ∀ (n : Nat) (c : ReaderContext) (xs : List α) (c' : ReaderContext),
    de_counted de n c = .ok (xs, c') →
    c'.input = c.input ∧ c'.stack = c.stack := by
  intro n
  induction n with
  | zero =>
    intro c c' xs h
    simp only [de_counted, Except.ok.injEq, Prod.mk.injEq] at h
    rw [← h.2]
    exact ⟨rfl, rfl⟩
  | succ m ih =>
    intro c xs c' h
    unfold de_counted at h
    rcases h1 : de c with e | ⟨x, c₁⟩ <;> rw [h1] at h <;> dsimp only at h
    · exact absurd h (by simp)
    · rcases h2 : de_counted de m c₁ with e | ⟨ys, c₂⟩ <;>
        rw [h2] at h <;> dsimp only at h
      · exact absurd h (by simp)
      · simp only [Except.ok.injEq, Prod.mk.injEq] at h
        obtain ⟨i1, s1⟩ := hde c x c₁ h1
        obtain ⟨i2, s2⟩ := ih c₁ ys c₂ h2
        rw [← h.2]
        exact ⟨i2.trans i1, s2.trans s1⟩

/-- C7 counterexample: this input's single record declares a string
offset of 100 — its pool slice lies past the end of the 18-byte
buffer — yet, because the declared length is 0, decoding reads
nothing and returns success rather than the reported error the claim
asserts for every such input. -/
theorem c7_counterexample :
    nameDeserialize emptyOverlongTableBytes = .ok ⟨[⟨0, 0, 0, 0, []⟩]⟩ ∧
    6 + 12 * 1 + 100 + 0 > emptyOverlongTableBytes.length := by
  exact ⟨by decide, by decide⟩

/-- C7 (amended): when the record count and the fixed records parse,
every record's platform/encoding pair is supported by the encoding
table, and some record demands a nonempty read extending past the end
of the input buffer, decoding the name table returns a reported
deserialization error — it neither reads out of bounds nor panics. -/
theorem c7_truncated_pool_reports_error
    (b : List Nat) (cnt : Nat) (c₀ c₁ : ReaderContext)
    (irs : List NameRecordInternal)
    (hcnt : de_u16 { input := b, ptr := 2, stack := [0] } = .ok (cnt, c₀))
    (hirs : de_counted deNameRecordInternal cnt (c₀.skip 2) = .ok (irs, c₁))
    (hsupp : ∀ ir ∈ irs,
      (get_encoding ir.platformID ir.encodingID).isSome = true)
    (hover : ∃ ir ∈ irs,
      c₁.ptr + ir.stringOffset + ir.length > b.length ∧ 0 < ir.length) :
    ∃ e, nameDeserialize b = .err e := by
  obtain ⟨hc₀, _⟩ := de_u16_ok_state _ _ _ hcnt
  subst hc₀
  obtain ⟨hin, hst⟩ := de_counted_preserves deNameRecordInternal
    (fun c x c' h => deNameRecordInternal_ok_state c c' x h)
    cnt _ irs c₁ hirs
  obtain ⟨e, he⟩ := readNameStrings_err irs c₁.push c₁.ptr c₁.stack rfl
    hsupp (by
      obtain ⟨ir, hmem, hgt, hpos⟩ := hover
      refine ⟨ir, hmem, ?_, hpos⟩
      show c₁.ptr + ir.stringOffset + ir.length > c₁.input.length
      rw [hin]
      exact hgt)
  refine ⟨e, ?_⟩
  unfold nameDeserialize nameFromBytes ReaderContext.new
  have h02 : ({ input := b, ptr := 0, stack := [0] } : ReaderContext).skip 2 =
      { input := b, ptr := 2, stack := [0] } := rfl
  rw [h02]
  dsimp only
  rw [hcnt]
  dsimp only
  rw [hirs]
  dsimp only
  rw [he]

/-- Witness for C7 at a concrete truncated table: one record with
string length 5 and no pool bytes. -/
theorem c7_witness : ∃ e, nameDeserialize overlongTableBytes = .err e :=
  c7_truncated_pool_reports_error overlongTableBytes 1
    { input := overlongTableBytes, ptr := 4, stack := [0] }
    { input := overlongTableBytes, ptr := 18, stack := [0] }
    [⟨0, 0, 0, 0, 5, 0⟩]
    (by decide) (by decide) (by decide) (by decide)

/-! ## Theorems: ascending tag order -/

/-- Every element of an insertion result is the inserted pair or an
original element. -/
theorem mem_btreeInsert {α : Type} (k : Nat) (v : α)
    (l : List (Nat × α)) (x : Nat × α) (hx : x ∈ btreeInsert k v l) :
    x = (k, v) ∨ x ∈ l := by
  induction l with
  | nil => simpa [btreeInsert] using hx
  | cons hd tl ih =>
    obtain ⟨k', v'⟩ := hd
    unfold btreeInsert at hx
    by_cases h1 : k < k'
    · rw [if_pos h1] at hx
      simpa using hx
    · rw [if_neg h1] at hx
      by_cases h2 : k = k'
      · rw [if_pos h2] at hx
        rcases List.mem_cons.mp hx with h | h
        · exact .inl h
        · exact .inr (List.mem_cons_of_mem _ h)
      · rw [if_neg h2] at hx
        rcases List.mem_cons.mp hx with h | h
        · exact .inr (h ▸ List.mem_cons_self _ _)
        · rcases ih h with h' | h'
          · exact .inl h'
          · exact .inr (List.mem_cons_of_mem _ h')

/-- Insertion preserves strict key-sortedness. -/
theorem pairwise_btreeInsert {α : Type} (k : Nat) (v : α)
    (l : List (Nat × α)) (h : l.Pairwise (fun a b => a.1 < b.1)) :
    (btreeInsert k v l).Pairwise (fun a b => a.1 < b.1) := by
  induction l with
  | nil => simp [btreeInsert]
  | cons hd tl ih =>
    obtain ⟨k', v'⟩ := hd
    rw [List.pairwise_cons] at h
    obtain ⟨hhd, htl⟩ := h
    unfold btreeInsert
    by_cases h1 : k < k'
    · rw [if_pos h1, List.pairwise_cons]
      refine ⟨?_, List.pairwise_cons.mpr ⟨hhd, htl⟩⟩
      intro b hb
      rcases List.mem_cons.mp hb with hb | hb
      · rw [hb]
        exact h1
      · exact lt_trans h1 (hhd b hb)
    · rw [if_neg h1]
      by_cases h2 : k = k'
      · rw [if_pos h2, List.pairwise_cons]
        exact ⟨fun b hb => h2 ▸ hhd b hb, htl⟩
      · rw [if_neg h2, List.pairwise_cons]
        refine ⟨?_, ih htl⟩
        intro b hb
        rcases mem_btreeInsert k v tl b hb with hb' | hb'
        · rw [hb']
          omega
        · exact hhd b hb'

/-- Folding insertions over a sorted map keeps it sorted. -/
theorem pairwise_foldl_btreeInsert {α : Type}
    (entries : List (Nat × α)) (init : List (Nat × α))
    (h : init.Pairwise (fun a b => a.1 < b.1)) :
    (entries.foldl (fun m kv => btreeInsert kv.1 kv.2 m) init).Pairwise
      (fun a b => a.1 < b.1) := by
  induction entries generalizing init with
  | nil => simpa using h
  | cons hd tl ih =>
    rw [List.foldl_cons]
    exact ih _ (pairwise_btreeInsert hd.1 hd.2 init h)

/-- Every element of a fold of insertions comes from the initial map
or from the inserted entries. -/
theorem mem_foldl_btreeInsert {α : Type}
    (entries : List (Nat × α)) (init : List (Nat × α)) (x : Nat × α)
    (hx : x ∈ entries.foldl (fun m kv => btreeInsert kv.1 kv.2 m) init) :
    x ∈ init ∨ x ∈ entries := by
  induction entries generalizing init with
  | nil => exact .inl (by simpa using hx)
  | cons hd tl ih =>
    rw [List.foldl_cons] at hx
    rcases ih _ hx with h | h
    · rcases mem_btreeInsert hd.1 hd.2 init x h with h' | h'
      · exact .inr (by simp [h'])
      · exact .inl h'
    · exact .inr (List.mem_cons_of_mem _ h)

/-- The language-system records of a converted Script built by
insertions carry strictly ascending, duplicate-free tags. -/
theorem script_lowlevel_tags_sorted (dls : Option LanguageSystem)
    (les : List (Nat × LanguageSystem)) :
    (((Script.ofInsertions dls les).toLowLevel.langSysRecords.map
        (·.langSysTag)).Pairwise (· < ·)) ∧
    ((Script.ofInsertions dls les).toLowLevel.langSysRecords.map
        (·.langSysTag)).Nodup := by
  have hp : ((Script.ofInsertions dls les).language_systems).Pairwise
      (fun a b => a.1 < b.1) :=
    pairwise_foldl_btreeInsert les [] (by simp)
  have hmap : (Script.ofInsertions dls les).toLowLevel.langSysRecords.map
      (·.langSysTag) =
      ((Script.ofInsertions dls les).language_systems).map (·.1) := by
    simp [Script.toLowLevel]
  rw [hmap]
  constructor
  · exact (List.pairwise_map).mpr hp
  · exact ((List.pairwise_map).mpr (hp.imp (fun hab => Nat.ne_of_lt hab)))

/-- C4 (as stated): however the script map and each script's
language-system map were populated, the converted low-level script
list carries its script records — and each script its language-system
records — in strictly ascending tag order, every tag exactly once. -/
theorem c4_ascending_tags
    (entries : List (Nat × Option LanguageSystem ×
      List (Nat × LanguageSystem))) :
    ((((ScriptList.ofInsertions
        (entries.map scriptEntryBuild)).toLowLevel.scriptRecords.map
        (·.scriptTag)).Pairwise (· < ·)) ∧
      (((ScriptList.ofInsertions
        (entries.map scriptEntryBuild)).toLowLevel.scriptRecords.map
        (·.scriptTag)).Nodup)) ∧
    ∀ rec ∈ (ScriptList.ofInsertions
        (entries.map scriptEntryBuild)).toLowLevel.scriptRecords,
      ∀ s, rec.script.link = some s →
        ((s.langSysRecords.map (·.langSysTag)).Pairwise (· < ·)) ∧
        (s.langSysRecords.map (·.langSysTag)).Nodup := by
  have hp : ((ScriptList.ofInsertions
      (entries.map scriptEntryBuild)).scripts).Pairwise
      (fun a b => a.1 < b.1) :=
    pairwise_foldl_btreeInsert _ [] (by simp)
  have hmap : (ScriptList.ofInsertions
      (entries.map scriptEntryBuild)).toLowLevel.scriptRecords.map
      (·.scriptTag) =
      ((ScriptList.ofInsertions (entries.map scriptEntryBuild)).scripts).map
        (·.1) := by
    simp [ScriptList.toLowLevel]
  constructor
  · rw [hmap]
    exact ⟨(List.pairwise_map).mpr hp,
      (List.pairwise_map).mpr (hp.imp (fun hab => Nat.ne_of_lt hab))⟩
  · intro rec hrec s hs
    simp only [ScriptList.toLowLevel, List.mem_map] at hrec
    obtain ⟨kv, hkv, hrec⟩ := hrec
    subst hrec
    simp only [Offset16.to, Option.some.injEq] at hs
    subst hs
    rcases mem_foldl_btreeInsert _ [] kv hkv with h | h
    · simp at h
    · simp only [List.mem_map] at h
      obtain ⟨e, _, he⟩ := h
      have : kv.2 = Script.ofInsertions e.2.1 e.2.2 := by
        rw [← he]
        rfl
      rw [this]
      exact script_lowlevel_tags_sorted e.2.1 e.2.2

/-- Witness for C4 at concrete, deliberately unsorted insertions. -/
theorem c4_witness :
    ((((ScriptList.ofInsertions
        ([(5, none, [(9, ⟨none, []⟩), (3, ⟨none, []⟩)]),
          (2, none, [])].map scriptEntryBuild)).toLowLevel.scriptRecords.map
        (·.scriptTag)).Pairwise (· < ·)) ∧
      (((ScriptList.ofInsertions
        ([(5, none, [(9, ⟨none, []⟩), (3, ⟨none, []⟩)]),
          (2, none, [])].map scriptEntryBuild)).toLowLevel.scriptRecords.map
        (·.scriptTag)).Nodup)) ∧
    ∀ rec ∈ (ScriptList.ofInsertions
        ([(5, none, [(9, ⟨none, []⟩), (3, ⟨none, []⟩)]),
          (2, none, [])].map scriptEntryBuild)).toLowLevel.scriptRecords,
      ∀ s, rec.script.link = some s →
        ((s.langSysRecords.map (·.langSysTag)).Pairwise (· < ·)) ∧
        (s.langSysRecords.map (·.langSysTag)).Nodup :=
  c4_ascending_tags
    [(5, none, [(9, ⟨none, []⟩), (3, ⟨none, []⟩)]), (2, none, [])]

/-! ## Theorems: unbounded sequence decode -/

/-- Progress of the `u16` element decoder: success consumes bytes and
stays within the buffer. -/
theorem u16Step_progress (c₀ : ReaderContext) (x : Nat)
    (c₁ : ReaderContext) (h : u16Step c₀ = (.ok x, c₁)) :
    c₁.input = c₀.input ∧ c₀.ptr < c₁.ptr ∧ c₁.ptr ≤ c₀.input.length := by
  unfold u16Step at h
  rcases hu : de_u16 c₀ with e | ⟨y, c⟩
  · rw [hu] at h
    exact absurd h (by simp)
  · rw [hu] at h
    simp only [Prod.mk.injEq, Except.ok.injEq] at h
    obtain ⟨hst, hb⟩ := de_u16_ok_state c₀ c y hu
    subst hst
    rw [← h.2]
    refine ⟨rfl, ?_, hb⟩
    show c₀.ptr < c₀.ptr + 2
    omega

/-- The loop of `Vec<T>::from_bytes` realizes the greedy-prefix
relation whenever the element decoder makes progress inside the
buffer and the fuel dominates the bytes remaining. -/
theorem vecDeLoop_greedy {α : Type} (de : ElementDe α)
    (hprog : ∀ c₀ x c₁, de c₀ = (.ok x, c₁) →
      c₁.input = c₀.input ∧ c₀.ptr < c₁.ptr ∧ c₁.ptr ≤ c₀.input.length) :
    ∀ fuel c, 0 < fuel → c.input.length < c.ptr + fuel →
      DecodesGreedily de c (vecDeLoop de fuel c).1 (vecDeLoop de fuel c).2 := by
  intro fuel
  induction fuel with
  | zero => intro c h; omega
  | succ n ih =>
    intro c _ hfuel
    rcases hd : de c with ⟨r, c'⟩
    cases r with
    | error e =>
      have heq : vecDeLoop de (n + 1) c = ([], c') := by
        simp [vecDeLoop, hd]
      rw [heq]
      exact .fail hd
    | ok x =>
      obtain ⟨hin, hlt, hle⟩ := hprog c x c' hd
      have hn : 0 < n := by omega
      have hf : c'.input.length < c'.ptr + n := by
        rw [hin]
        omega
      have heq : vecDeLoop de (n + 1) c =
          (x :: (vecDeLoop de n c').1, (vecDeLoop de n c').2) := by
        simp [vecDeLoop, hd]
      rw [heq]
      exact .cons hd (ih c' hn hf)

/-- C9: decoding an unbounded `Vec<T>` collects the maximal prefix of
successful element decodes in order, the overall decode itself always
returns `Ok` (the failing element's error is swallowed), and the final
reader state is the failing element's post-state, so its partially
consumed bytes stay consumed. -/
theorem c9_vec_decode {α : Type} (de : ElementDe α) (fuel : Nat)
    (c : ReaderContext)
    (hprog : ∀ c₀ x c₁, de c₀ = (.ok x, c₁) →
      c₁.input = c₀.input ∧ c₀.ptr < c₁.ptr ∧ c₁.ptr ≤ c₀.input.length)
    (hpos : 0 < fuel) (hfuel : c.input.length < c.ptr + fuel) :
    vecFromBytes de fuel c = .ok (vecDeLoop de fuel c) ∧
    DecodesGreedily de c (vecDeLoop de fuel c).1 (vecDeLoop de fuel c).2 :=
  ⟨rfl, vecDeLoop_greedy de hprog fuel c hpos hfuel⟩

/-- Witness for C9: over the five-byte buffer 00 01 00 02 05 the `u16`
sequence decode returns `Ok` with the two decodable elements and
leaves the cursor before the odd trailing byte. -/
theorem c9_witness :
    (vecFromBytes u16Step 6 (ReaderContext.new [0, 1, 0, 2, 5]) =
      .ok (vecDeLoop u16Step 6 (ReaderContext.new [0, 1, 0, 2, 5])) ∧
    DecodesGreedily u16Step (ReaderContext.new [0, 1, 0, 2, 5])
      (vecDeLoop u16Step 6 (ReaderContext.new [0, 1, 0, 2, 5])).1
      (vecDeLoop u16Step 6 (ReaderContext.new [0, 1, 0, 2, 5])).2) ∧
    vecDeLoop u16Step 6 (ReaderContext.new [0, 1, 0, 2, 5]) =
      ([1, 2], { input := [0, 1, 0, 2, 5], ptr := 4, stack := [0] }) :=
  ⟨c9_vec_decode u16Step 6 (ReaderContext.new [0, 1, 0, 2, 5])
      u16Step_progress (by decide) (by decide),
   by decide⟩

/-! ## Theorems: name-table round trip -/

/-- Dropping past a known prefix of the remaining input. -/
theorem drop_advance (l suffix pre : List Nat) (p k : Nat)
    (h : l.drop p = pre ++ suffix) (hpre : pre.length = k) :
    l.drop (p + k) = suffix := by
  subst hpre
  rw [← List.drop_drop, h, List.drop_left]

/-- A `u16` read off an explicitly known remaining input. -/
theorem de_u16_cons (c : ReaderContext) (x y : Nat) (rest : List Nat)
    (h : c.input.drop c.ptr = x :: y :: rest) :
    de_u16 c = .ok (x * 256 + y, { c with ptr := c.ptr + 2 }) := by
  have hlen : c.ptr + 2 ≤ c.input.length := by
    have hl := congrArg List.length h
    rw [List.length_drop] at hl
    simp only [List.length_cons] at hl
    omega
  unfold de_u16 ReaderContext.consume ReaderContext.consume_or_peek
  rw [if_neg (by omega)]
  dsimp only
  rw [h]
  rfl

/-- A byte read off an explicitly known remaining input. -/
theorem de_u8_cons (c : ReaderContext) (x : Nat) (rest : List Nat)
    (h : c.input.drop c.ptr = x :: rest) :
    de_u8 c = .ok (x, { c with ptr := c.ptr + 1 }) := by
  have hlen : c.ptr + 1 ≤ c.input.length := by
    have hl := congrArg List.length h
    rw [List.length_drop] at hl
    simp only [List.length_cons] at hl
    omega
  unfold de_u8 ReaderContext.consume ReaderContext.consume_or_peek
  rw [if_neg (by omega)]
  dsimp only
  rw [h]
  rfl

/-- Reading back a `u16` value that `put16` serialized. -/
theorem de_u16_put16 (c : ReaderContext) (v : Nat) (rest : List Nat)
    (hv : v < 65536) (h : c.input.drop c.ptr = put16 v ++ rest) :
    de_u16 c = .ok (v, { c with ptr := c.ptr + 2 }) := by
  have h' : c.input.drop c.ptr = v % 65536 / 256 :: v % 256 :: rest := by
    simpa [put16] using h
  have hval : v % 65536 / 256 * 256 + v % 256 = v := by
    rw [Nat.mod_eq_of_lt hv]
    have := Nat.div_add_mod v 256
    omega
  rw [de_u16_cons c _ _ rest h', hval]

/-- `put16` always emits two bytes. -/
theorem put16_length (v : Nat) : (put16 v).length = 2 := rfl

/-- A fixed name record occupies twelve bytes. -/
theorem buildNameRecordBytes_length (so : Nat) (r : RawNameRec) :
    (buildNameRecordBytes so r).length = 12 := by
  simp [buildNameRecordBytes, put16]

/-- The fixed-record region occupies twelve bytes per record. -/
theorem buildNameRecords_length :
    ∀ (rs : List RawNameRec) (so : Nat),
    (buildNameRecords so rs).length = 12 * rs.length := by
  intro rs
  induction rs with
  | nil => intro so; rfl
  | cons r rest ih =>
    intro so
    simp only [buildNameRecords, List.length_append,
      buildNameRecordBytes_length, ih, List.length_cons]
    omega

/-- Unpacking record validity: the selected encoding exists, the
decoded string re-encodes to the original bytes, and all six stored
fields fit in a `u16`. -/
theorem validNameRec_encoding (r : RawNameRec)
    (h : validNameRec r = true) :
    ∃ enc, get_encoding r.platformID r.encodingID = some enc ∧
      encodeStr enc (decodeStr enc r.bytes) = r.bytes ∧
      r.platformID < 65536 ∧ r.encodingID < 65536 ∧
      r.languageID < 65536 ∧ r.nameID < 65536 ∧ r.bytes.length < 65536 := by
  unfold validNameRec at h
  rcases henc : get_encoding r.platformID r.encodingID with _ | enc <;>
    rw [henc] at h
  · simp at h
  · simp only [Bool.and_eq_true, decide_eq_true_eq] at h
    exact ⟨enc, rfl, h.2, h.1.1.1.1.1, h.1.1.1.1.2, h.1.1.1.2, h.1.1.2,
      h.1.2⟩

/-- Unpacking record-list validity one record at a time. -/
theorem validNameRecs_cons (so : Nat) (r : RawNameRec)
    (rest : List RawNameRec) (h : validNameRecs so (r :: rest) = true) :
    so < 65536 ∧ validNameRec r = true ∧
      validNameRecs (so + r.bytes.length) rest = true := by
  unfold validNameRecs at h
  simp only [Bool.and_eq_true, decide_eq_true_eq] at h
  exact ⟨h.1.1, h.1.2, h.2⟩

/-- A counted byte read returns exactly the known prefix of the
remaining input and advances past it. -/
theorem de_counted_u8_bytes :
    ∀ (bytes : List Nat) (c : ReaderContext) (suffix : List Nat),
    c.input.drop c.ptr = bytes ++ suffix →
    de_counted de_u8 bytes.length c =
      .ok (bytes, { c with ptr := c.ptr + bytes.length }) := by
  intro bytes
  induction bytes with
  | nil =>
    intro c suffix _
    rfl
  | cons b bs ih =>
    intro c suffix h
    have hb : c.input.drop c.ptr = b :: (bs ++ suffix) := by simpa using h
    have h1 := de_u8_cons c b (bs ++ suffix) hb
    have h2 : ({ c with ptr := c.ptr + 1 } : ReaderContext).input.drop
        ({ c with ptr := c.ptr + 1 } : ReaderContext).ptr = bs ++ suffix :=
      drop_advance c.input (bs ++ suffix) [b] c.ptr 1 hb rfl
    have h3 := ih { c with ptr := c.ptr + 1 } suffix h2
    show de_counted de_u8 (bs.length + 1) c = _
    unfold de_counted
    rw [h1]
    dsimp only
    rw [h3]
    dsimp only
    have harith : c.ptr + 1 + bs.length = c.ptr + (b :: bs).length := by
      simp only [List.length_cons]
      omega
    rw [harith]

/-- Decoding one fixed record of a canonical table returns its six
fields and advances twelve bytes. -/
theorem deNameRecordInternal_build (c : ReaderContext) (so : Nat)
    (r : RawNameRec) (tail : List Nat)
    (h : c.input.drop c.ptr = buildNameRecordBytes so r ++ tail)
    (hr : validNameRec r = true) (hso : so < 65536) :
    deNameRecordInternal c =
      .ok (⟨r.platformID, r.encodingID, r.languageID, r.nameID,
            r.bytes.length, so⟩, { c with ptr := c.ptr + 12 }) := by
  obtain ⟨enc, _, _, hp, he, hl, hn, hb⟩ := validNameRec_encoding r hr
  have h1 : c.input.drop c.ptr = put16 r.platformID ++
      (put16 r.encodingID ++ (put16 r.languageID ++ (put16 r.nameID ++
        (put16 r.bytes.length ++ (put16 so ++ tail))))) := by
    simpa [buildNameRecordBytes, List.append_assoc] using h
  have e1 := de_u16_put16 c r.platformID _ hp h1
  have d1 : c.input.drop (c.ptr + 2) = put16 r.encodingID ++
      (put16 r.languageID ++ (put16 r.nameID ++
        (put16 r.bytes.length ++ (put16 so ++ tail)))) :=
    drop_advance _ _ _ _ _ h1 rfl
  have e2 := de_u16_put16 { c with ptr := c.ptr + 2 } r.encodingID _ he d1
  have d2 : c.input.drop (c.ptr + 2 + 2) = put16 r.languageID ++
      (put16 r.nameID ++ (put16 r.bytes.length ++ (put16 so ++ tail))) :=
    drop_advance _ _ _ _ _ d1 rfl
  have e3 := de_u16_put16 { c with ptr := c.ptr + 2 + 2 }
    r.languageID _ hl d2
  have d3 : c.input.drop (c.ptr + 2 + 2 + 2) = put16 r.nameID ++
      (put16 r.bytes.length ++ (put16 so ++ tail)) :=
    drop_advance _ _ _ _ _ d2 rfl
  have e4 := de_u16_put16 { c with ptr := c.ptr + 2 + 2 + 2 }
    r.nameID _ hn d3
  have d4 : c.input.drop (c.ptr + 2 + 2 + 2 + 2) =
      put16 r.bytes.length ++ (put16 so ++ tail) :=
    drop_advance _ _ _ _ _ d3 rfl
  have e5 := de_u16_put16 { c with ptr := c.ptr + 2 + 2 + 2 + 2 }
    r.bytes.length _ hb d4
  have d5 : c.input.drop (c.ptr + 2 + 2 + 2 + 2 + 2) =
      put16 so ++ tail :=
    drop_advance _ _ _ _ _ d4 rfl
  have e6 := de_u16_put16 { c with ptr := c.ptr + 2 + 2 + 2 + 2 + 2 }
    so _ hso d5
  unfold deNameRecordInternal
  rw [e1]
  dsimp only
  rw [e2]
  dsimp only
  rw [e3]
  dsimp only
  rw [e4]
  dsimp only
  rw [e5]
  dsimp only
  rw [e6]

/-- Decoding the fixed-record region of a canonical table yields its
low-level records and advances twelve bytes per record. -/
theorem de_counted_records :
    ∀ (rs : List RawNameRec) (so : Nat) (c : ReaderContext)
      (tail : List Nat),
    c.input.drop c.ptr = buildNameRecords so rs ++ tail →
    validNameRecs so rs = true →
    de_counted deNameRecordInternal rs.length c =
      .ok (internalsOfRaw so rs,
        { c with ptr := c.ptr + 12 * rs.length }) := by
  intro rs
  induction rs with
  | nil =>
    intro so c tail _ _
    show de_counted deNameRecordInternal 0 c = _
    simp [de_counted, internalsOfRaw]
  | cons r rest ih =>
    intro so c tail h hv
    obtain ⟨hso, hr, hrest⟩ := validNameRecs_cons so r rest hv
    have h' : c.input.drop c.ptr = buildNameRecordBytes so r ++
        (buildNameRecords (so + r.bytes.length) rest ++ tail) := by
      simpa [buildNameRecords, List.append_assoc] using h
    have e1 := deNameRecordInternal_build c so r _ h' hr hso
    have d1 : c.input.drop (c.ptr + 12) =
        buildNameRecords (so + r.bytes.length) rest ++ tail :=
      drop_advance _ _ _ _ _ h' (buildNameRecordBytes_length so r)
    have e2 := ih (so + r.bytes.length) { c with ptr := c.ptr + 12 }
      tail d1 hrest
    show de_counted deNameRecordInternal (rest.length + 1) c = _
    unfold de_counted
    rw [e1]
    dsimp only
    rw [e2]
    dsimp only
    simp only [internalsOfRaw, List.length_cons]
    have harith : c.ptr + 12 + 12 * rest.length =
        c.ptr + 12 * (rest.length + 1) := by
      omega
    rw [harith]

/-- The string-reading loop of a canonical table decodes every
record's pool slice with its selected encoding, leaving the origin
stack untouched. -/
theorem readNameStrings_build (B : List Nat) (T : Nat) :
    ∀ (rs : List RawNameRec) (so : Nat) (c : ReaderContext)
      (extra : List Nat) (s' : List Nat),
    c.input = B → c.stack = T :: s' →
    B.drop (T + so) = buildNamePool rs ++ extra →
    validNameRecs so rs = true →
    ∃ cfin, readNameStrings (internalsOfRaw so rs) c =
      .ok ((nameOfRaw rs).records, cfin) ∧ cfin.stack = c.stack := by
  intro rs
  induction rs with
  | nil =>
    intro so c extra s' _ _ _ _
    exact ⟨c, rfl, rfl⟩
  | cons r rest ih =>
    intro so c extra s' hin hstack hpool hv
    obtain ⟨hso, hr, hrest⟩ := validNameRecs_cons so r rest hv
    obtain ⟨enc, henc, hround, _⟩ := validNameRec_encoding r hr
    have htop : c.top_of_table = some T := by
      simp [ReaderContext.top_of_table, hstack]
    have hpool' : B.drop (T + so) = r.bytes ++
        (buildNamePool rest ++ extra) := by
      simpa [buildNamePool, List.append_assoc] using hpool
    have hc' : ({ c with ptr := T + so } : ReaderContext).input.drop
        ({ c with ptr := T + so } : ReaderContext).ptr =
        r.bytes ++ (buildNamePool rest ++ extra) := by
      dsimp only
      rw [hin]
      exact hpool'
    have eread := de_counted_u8_bytes r.bytes { c with ptr := T + so }
      (buildNamePool rest ++ extra) hc'
    have hpool2 : B.drop (T + (so + r.bytes.length)) =
        buildNamePool rest ++ extra := by
      have := drop_advance B (buildNamePool rest ++ extra) r.bytes
        (T + so) r.bytes.length hpool' rfl
      rw [← this]
      have harith : T + so + r.bytes.length = T + (so + r.bytes.length) := by
        omega
      rw [harith]
    obtain ⟨cfin, hrec, hstackfin⟩ := ih (so + r.bytes.length)
      { c with ptr := T + so + r.bytes.length } extra s' (by dsimp only; exact hin)
      (by dsimp only; exact hstack) hpool2 hrest
    refine ⟨cfin, ?_, by rw [hstackfin]⟩
    show readNameStrings
      (⟨r.platformID, r.encodingID, r.languageID, r.nameID,
        r.bytes.length, so⟩ :: internalsOfRaw (so + r.bytes.length) rest)
      c = _
    unfold readNameStrings
    rw [htop]
    dsimp only
    rw [eread]
    dsimp only
    rw [henc]
    dsimp only
    rw [hrec]
    dsimp only
    have hstr : rawDecodedString r = decodeStr enc r.bytes := by
      simp [rawDecodedString, henc]
    simp only [nameOfRaw, List.map_cons, hstr]

/-- Decoding a canonical name table yields exactly its records, each
string decoded with its selected encoding. -/
theorem nameDeserialize_build (rs : List RawNameRec)
    (hn : rs.length < 65536) (hv : validNameRecs 0 rs = true) :
    nameDeserialize (buildNameTable rs) = .ok (nameOfRaw rs) := by
  have hB0 : (buildNameTable rs).drop 0 = put16 0 ++ (put16 rs.length ++
      (put16 (6 + 12 * rs.length) ++
        (buildNameRecords 0 rs ++ buildNamePool rs))) := by
    simp [buildNameTable, List.append_assoc]
  have hB2 : (buildNameTable rs).drop 2 = put16 rs.length ++
      (put16 (6 + 12 * rs.length) ++
        (buildNameRecords 0 rs ++ buildNamePool rs)) := by
    have h := drop_advance _ _ _ 0 2 hB0 rfl
    simpa using h
  have hB4 : (buildNameTable rs).drop 4 = put16 (6 + 12 * rs.length) ++
      (buildNameRecords 0 rs ++ buildNamePool rs) := by
    have h := drop_advance _ _ _ 2 2 hB2 rfl
    simpa using h
  have hB6 : (buildNameTable rs).drop 6 =
      buildNameRecords 0 rs ++ buildNamePool rs := by
    have h := drop_advance _ _ _ 4 2 hB4 rfl
    simpa using h
  have hBT : (buildNameTable rs).drop (6 + 12 * rs.length) =
      buildNamePool rs :=
    drop_advance _ _ _ 6 (12 * rs.length) hB6 (buildNameRecords_length rs 0)
  have e_cnt : de_u16 { input := buildNameTable rs, ptr := 2, stack := [0] } =
      .ok (rs.length,
        { input := buildNameTable rs, ptr := 4, stack := [0] }) :=
    de_u16_put16 { input := buildNameTable rs, ptr := 2, stack := [0] }
      rs.length _ hn hB2
  have e_recs : de_counted deNameRecordInternal rs.length
      { input := buildNameTable rs, ptr := 6, stack := [0] } =
      .ok (internalsOfRaw 0 rs,
        { input := buildNameTable rs, ptr := 6 + 12 * rs.length,
          stack := [0] }) :=
    de_counted_records rs 0
      { input := buildNameTable rs, ptr := 6, stack := [0] }
      (buildNamePool rs) hB6 hv
  obtain ⟨cfin, e_str, hstk⟩ := readNameStrings_build (buildNameTable rs)
    (6 + 12 * rs.length) rs 0
    { input := buildNameTable rs, ptr := 6 + 12 * rs.length,
      stack := [6 + 12 * rs.length, 0] }
    [] [0] rfl rfl (by simpa using hBT) hv
  have hpop : cfin.pop = some { cfin with stack := [0] } := by
    unfold ReaderContext.pop
    rw [hstk]
  unfold nameDeserialize nameFromBytes ReaderContext.new
  have h02 : ({ input := buildNameTable rs, ptr := 0, stack := [0] } :
      ReaderContext).skip 2 =
      { input := buildNameTable rs, ptr := 2, stack := [0] } := rfl
  rw [h02]
  dsimp only
  rw [e_cnt]
  dsimp only
  have h46 : ({ input := buildNameTable rs, ptr := 4, stack := [0] } :
      ReaderContext).skip 2 =
      { input := buildNameTable rs, ptr := 6, stack := [0] } := rfl
  rw [h46, e_recs]
  dsimp only
  have hpush :
      ({ input := buildNameTable rs, ptr := 6 + 12 * rs.length,
         stack := [0] } : ReaderContext).push =
        { input := buildNameTable rs, ptr := 6 + 12 * rs.length,
          stack := [6 + 12 * rs.length, 0] } := rfl
  rw [hpush, e_str]
  dsimp only
  rw [hpop]

/-- Serializing the decoded records of a canonical table regenerates
its fixed-record region and string pool. -/
theorem nameRecordsToBytes_build :
    ∀ (rs : List RawNameRec) (pool : List Nat),
    validNameRecs pool.length rs = true →
    nameRecordsToBytes (nameOfRaw rs).records pool =
      some (buildNameRecords pool.length rs, pool ++ buildNamePool rs) := by
  intro rs
  induction rs with
  | nil =>
    intro pool _
    simp [nameOfRaw, nameRecordsToBytes, buildNameRecords, buildNamePool]
  | cons r rest ih =>
    intro pool hv
    obtain ⟨hso, hr, hrest⟩ := validNameRecs_cons _ r rest hv
    obtain ⟨enc, henc, hround, _⟩ := validNameRec_encoding r hr
    have hstr : rawDecodedString r = decodeStr enc r.bytes := by
      simp [rawDecodedString, henc]
    have hrest' : validNameRecs (pool ++ r.bytes).length rest = true := by
      simpa [List.length_append] using hrest
    have e2 := ih (pool ++ r.bytes) hrest'
    show nameRecordsToBytes
      (⟨r.platformID, r.encodingID, r.languageID, r.nameID,
        rawDecodedString r⟩ :: (nameOfRaw rest).records) pool = _
    unfold nameRecordsToBytes
    dsimp only
    rw [henc]
    dsimp only
    rw [hstr, hround, e2]
    dsimp only
    simp [buildNameRecords, buildNamePool, buildNameRecordBytes,
      List.length_append, List.append_assoc]

/-- Serializing the name value of a canonical table regenerates the
table byte-for-byte. -/
theorem nameSerialize_build (rs : List RawNameRec)
    (hn : rs.length < 65536) (hv : validNameRecs 0 rs = true) :
    nameSerialize (nameOfRaw rs) = some (buildNameTable rs) := by
  have e := nameRecordsToBytes_build rs [] (by simpa using hv)
  unfold nameSerialize
  rw [e]
  dsimp only
  have hlen : (nameOfRaw rs).records.length = rs.length := by
    simp [nameOfRaw]
  rw [hlen, Nat.mod_eq_of_lt hn]
  simp [buildNameTable]

set_option maxRecDepth 100000 in
/-- C1 counterexample: the six-record fixture does round-trip with
header bytes 00 00 00 06 00 4e, but its serialization is 0x84 = 132
bytes long, not the 0x9a bytes the claim states. -/
theorem c1_counterexample :
    nameDeserialize fixtureNameBytes = .ok fixtureNameTable ∧
    nameSerialize fixtureNameTable = some fixtureNameBytes ∧
    fixtureNameBytes.take 6 = [0x00, 0x00, 0x00, 0x06, 0x00, 0x4e] ∧
    fixtureNameBytes.length = 0x84 ∧
    ¬(fixtureNameBytes.length = 0x9a) := by
  exact ⟨by decide, by decide, by decide, by decide, by decide⟩

set_option maxRecDepth 100000 in
/-- C1 (amended): for every well-formed name-table byte sequence,
decoding and re-encoding reproduces the input bytes exactly; in
particular the six-record fixture round-trips to a serialization
whose first six header bytes are 00 00 00 06 00 4e and whose total
length is 0x84 bytes. -/
theorem c1_name_roundtrip :
    (∀ b : List Nat, WellFormedNameTable b →
      ∃ t : name, nameDeserialize b = .ok t ∧ nameSerialize t = some b) ∧
    nameDeserialize fixtureNameBytes = .ok fixtureNameTable ∧
    nameSerialize fixtureNameTable = some fixtureNameBytes ∧
    fixtureNameBytes.take 6 = [0x00, 0x00, 0x00, 0x06, 0x00, 0x4e] ∧
    fixtureNameBytes.length = 0x84 := by
  refine ⟨?_, by decide, by decide, by decide, by decide⟩
  intro b hb
  obtain ⟨rs, hn, hv, rfl⟩ := hb
  exact ⟨nameOfRaw rs, nameDeserialize_build rs hn hv,
    nameSerialize_build rs hn hv⟩

set_option maxRecDepth 100000 in
/-- Witness for C1: the universal round-trip statement applied to the
fixture bytes, whose well-formedness is checked by evaluation. -/
theorem c1_witness :
    ∃ t : name, nameDeserialize fixtureNameBytes = .ok t ∧
      nameSerialize t = some fixtureNameBytes :=
  c1_name_roundtrip.1 fixtureNameBytes
    ⟨fixtureRaw, by decide, by decide, by decide⟩

/-- Witness for C10 on a font lacking gasp and one carrying it. -/
theorem c10_witness :
    (fixNonHinted []).lookupTag "gasp" =
      some (.gaspContent fixGaspTable) ∧
    (fixNonHinted [("gasp", .gaspContent ⟨0, []⟩)]).lookupTag "gasp" =
      Font.lookupTag [("gasp", .gaspContent ⟨0, []⟩)] "gasp" :=
  ⟨(c10_fix_non_hinted []).1 rfl,
   (c10_fix_non_hinted [("gasp", .gaspContent ⟨0, []⟩)]).2.1 (by decide)⟩

/-! ## Theorems: offset-graph resolver -/

/-- Closedness is monotone in the placement order. -/
theorem ClosedIn_mono (arena : List TableNode) {order order' : List Nat}
    (hsub : order ⊆ order') {j : Nat} (h : ClosedIn arena order j) :
    ClosedIn arena order' j :=
  fun node m h1 h2 => hsub (h node m h1 h2)

/-- Start-address lookup, one placed node at a time. -/
theorem lookupStart_cons (k v : Nat) (rest : List (Nat × Nat)) (i : Nat) :
    lookupStart ((k, v) :: rest) i =
      if k = i then some v else lookupStart rest i := by
  unfold lookupStart
  by_cases h : k = i
  · rw [List.find?_cons_of_pos _ (by simp [h]), if_pos h]
    simp
  · rw [List.find?_cons_of_neg _ (by simp [h]), if_neg h]

/-- Every placed node has a start address in the layout. -/
theorem lookupStart_layout (arena : List TableNode) :
    ∀ (order : List Nat) (addr i : Nat), i ∈ order →
    (lookupStart (layoutStarts arena order addr) i).isSome = true := by
  intro order
  induction order with
  | nil =>
    intro addr i h
    simp at h
  | cons idx rest ih =>
    intro addr i h
    simp only [layoutStarts]
    rw [lookupStart_cons]
    by_cases he : idx = i
    · rw [if_pos he]
      rfl
    · rw [if_neg he]
      have hmem : i ∈ rest := by
        rcases List.mem_cons.mp h with h' | h'
        · exact absurd h'.symm he
        · exact h'
      exact ih _ i hmem

/-- Correctness of the depth-first traversal under a rank function
that strictly decreases along marker edges: with fuel above the rank
of the visited node the traversal neither reports a cycle nor runs
out of fuel, returns a placement order extending the given one and
containing the node, keeps all indices in range, and is closed under
marker targets except along the active path. -/
theorem dfs_joint (arena : List TableNode) (rank : Nat → Nat)
    (hW : ∀ node ∈ arena, ∀ m ∈ node.markers, m.target < arena.length)
    (hR : ∀ i, i < arena.length →
      ∀ m ∈ (arena.getD i ⟨0, []⟩).markers, rank m.target < rank i) :
    ∀ fuel : Nat,
    (∀ active idx order,
      idx < arena.length →
      (∀ a ∈ active, rank idx < rank a) →
      rank idx < fuel →
      (∀ j ∈ order, j < arena.length) →
      (∀ j ∈ order, j ∈ active ∨ ClosedIn arena order j) →
      ∃ order', dfsNode arena fuel active idx order = .ok order' ∧
        order ⊆ order' ∧ idx ∈ order' ∧
        (∀ j ∈ order', j < arena.length) ∧
        (∀ j ∈ order', j ∈ active ∨ ClosedIn arena order' j)) ∧
    (∀ active targets order,
      (∀ t ∈ targets, t < arena.length) →
      (∀ t ∈ targets, ∀ a ∈ active, rank t < rank a) →
      (∀ t ∈ targets, rank t < fuel) →
      (∀ j ∈ order, j < arena.length) →
      (∀ j ∈ order, j ∈ active ∨ ClosedIn arena order j) →
      ∃ order', dfsChildren arena fuel active targets order = .ok order' ∧
        order ⊆ order' ∧ (∀ t ∈ targets, t ∈ order') ∧
        (∀ j ∈ order', j < arena.length) ∧
        (∀ j ∈ order', j ∈ active ∨ ClosedIn arena order' j)) := by
  intro fuel
  induction fuel with
  | zero =>
    constructor
    · intro active idx order _ _ hfuel _ _
      omega
    · intro active targets order _ _ hfuel hQ hInv
      cases targets with
      | nil =>
        refine ⟨order, ?_, List.Subset.refl order, by simp, hQ, hInv⟩
        simp [dfsChildren]
      | cons t ts =>
        exact absurd (hfuel t (List.mem_cons_self t ts)) (by omega)
  | succ f ih =>
    have hnode : ∀ active idx order,
        idx < arena.length →
        (∀ a ∈ active, rank idx < rank a) →
        rank idx < f + 1 →
        (∀ j ∈ order, j < arena.length) →
        (∀ j ∈ order, j ∈ active ∨ ClosedIn arena order j) →
        ∃ order', dfsNode arena (f + 1) active idx order = .ok order' ∧
          order ⊆ order' ∧ idx ∈ order' ∧
          (∀ j ∈ order', j < arena.length) ∧
          (∀ j ∈ order', j ∈ active ∨ ClosedIn arena order' j) := by
      intro active idx order hidx hact hfuel hQ hInv
      have hnotact : idx ∉ active := fun hmem =>
        absurd (hact idx hmem) (lt_irrefl _)
      by_cases hmem : idx ∈ order
      · refine ⟨order, ?_, List.Subset.refl order, hmem, hQ, hInv⟩
        simp only [dfsNode]
        rw [if_neg hnotact, if_pos hmem]
      · rcases hget : arena.get? idx with _ | node
        · exfalso
          have := List.get?_eq_none.mp hget
          omega
        · have hnodemem : node ∈ arena := List.get?_mem hget
          have hgetD : arena.getD idx ⟨0, []⟩ = node := by
            rw [List.getD_eq_getElem arena _ hidx]
            have h2 : arena.get? idx = some arena[idx] := by
              rw [List.get?_eq_getElem?, List.getElem?_eq_getElem hidx]
            rw [h2] at hget
            exact (Option.some.injEq _ _ ▸ hget :)
          have hR' : ∀ m ∈ node.markers, rank m.target < rank idx := by
            intro m hm
            have := hR idx hidx m (by rw [hgetD]; exact hm)
            exact this
          have hT' : ∀ t ∈ node.markers.map (·.target),
              t < arena.length := by
            intro t ht
            obtain ⟨m, hm, rfl⟩ := List.mem_map.mp ht
            exact hW node hnodemem m hm
          have hA' : ∀ t ∈ node.markers.map (·.target),
              ∀ a ∈ idx :: active, rank t < rank a := by
            intro t ht a ha
            obtain ⟨m, hm, rfl⟩ := List.mem_map.mp ht
            rcases List.mem_cons.mp ha with rfl | ha'
            · exact hR' m hm
            · exact lt_trans (hR' m hm) (hact a ha')
          have hF' : ∀ t ∈ node.markers.map (·.target), rank t < f := by
            intro t ht
            obtain ⟨m, hm, rfl⟩ := List.mem_map.mp ht
            have h1 := hR' m hm
            omega
          have hq' : ∀ j ∈ order ++ [idx], j < arena.length := by
            intro j hj
            rcases List.mem_append.mp hj with hj' | hj'
            · exact hQ j hj'
            · rw [List.mem_singleton.mp hj']
              exact hidx
          have hi' : ∀ j ∈ order ++ [idx],
              j ∈ idx :: active ∨ ClosedIn arena (order ++ [idx]) j := by
            intro j hj
            rcases List.mem_append.mp hj with hj' | hj'
            · rcases hInv j hj' with ha | hc
              · exact .inl (List.mem_cons_of_mem _ ha)
              · exact .inr (ClosedIn_mono arena
                  (fun x hx => List.mem_append_left _ hx) hc)
            · rw [List.mem_singleton.mp hj']
              exact .inl (List.mem_cons_self _ _)
          obtain ⟨order', hrun, hsub, htgt, hQ', hInv'⟩ :=
            ih.2 (idx :: active) (node.markers.map (·.target))
              (order ++ [idx]) hT' hA' hF' hq' hi'
          have hrun' : dfsNode arena (f + 1) active idx order =
              .ok order' := by
            simp only [dfsNode]
            rw [if_neg hnotact, if_neg hmem, hget]
            exact hrun
          have hidxmem : idx ∈ order' :=
            hsub (List.mem_append_right _ (List.mem_singleton.mpr rfl))
          have hclosed : ClosedIn arena order' idx := by
            intro node' m hget' hm
            rw [hget] at hget'
            have hnn : node = node' := by
              exact (Option.some.injEq _ _ ▸ hget' :)
            subst hnn
            exact htgt m.target (List.mem_map.mpr ⟨m, hm, rfl⟩)
          refine ⟨order', hrun',
            fun x hx => hsub (List.mem_append_left _ hx), hidxmem, hQ', ?_⟩
          intro j hj
          rcases hInv' j hj with hja | hjc
          · rcases List.mem_cons.mp hja with rfl | ha'
            · exact .inr hclosed
            · exact .inl ha'
          · exact .inr hjc
    refine ⟨hnode, ?_⟩
    intro active targets
    induction targets with
    | nil =>
      intro order _ _ _ hQ hInv
      refine ⟨order, ?_, List.Subset.refl order, by simp, hQ, hInv⟩
      simp [dfsChildren]
    | cons t ts iht =>
      intro order hT hA hF hQ hInv
      obtain ⟨order₁, hrun₁, hsub₁, hmem₁, hQ₁, hInv₁⟩ :=
        hnode active t order (hT t (List.mem_cons_self t ts))
          (hA t (List.mem_cons_self t ts)) (hF t (List.mem_cons_self t ts))
          hQ hInv
      obtain ⟨order₂, hrun₂, hsub₂, hmem₂, hQ₂, hInv₂⟩ :=
        iht order₁ (fun x hx => hT x (List.mem_cons_of_mem t hx))
          (fun x hx => hA x (List.mem_cons_of_mem t hx))
          (fun x hx => hF x (List.mem_cons_of_mem t hx)) hQ₁ hInv₁
      refine ⟨order₂, ?_, fun x hx => hsub₂ (hsub₁ hx), ?_, hQ₂, hInv₂⟩
      · simp only [dfsChildren]
        rw [hrun₁]
        exact hrun₂
      · intro x hx
        rcases List.mem_cons.mp hx with rfl | hx'
        · exact hsub₂ hmem₁
        · exact hmem₂ x hx'

/-- Resolving one node's markers either fails with `WidthOverflow` or
yields values whose 16-bit entries are all below 65536. -/
theorem resolveMarkerList_spec (starts : List (Nat × Nat))
    (parentStart : Nat) :
    ∀ markers : List OffsetMark,
    (∀ m ∈ markers, (lookupStart starts m.target).isSome = true) →
    resolveMarkerList starts parentStart markers = .error .widthOverflow ∨
    ∃ vs, resolveMarkerList starts parentStart markers = .ok vs ∧
      ∀ wv ∈ vs, wv.1 = .w16 → wv.2 < 65536 := by
  intro markers
  induction markers with
  | nil =>
    intro _
    exact .inr ⟨[], rfl, by simp⟩
  | cons m rest ih =>
    intro hs
    have hm := hs m (List.mem_cons_self m rest)
    rcases hcs : lookupStart starts m.target with _ | cs
    · rw [hcs] at hm
      simp at hm
    · by_cases hover : m.width = .w16 ∧ ((cs : Int) - (parentStart : Int)) > 65535
      · left
        unfold resolveMarkerList
        rw [hcs]
        dsimp only
        rw [if_pos hover]
      · rcases ih (fun x hx => hs x (List.mem_cons_of_mem m hx)) with
          herr | ⟨vs, hok, hvs⟩
        · left
          unfold resolveMarkerList
          rw [hcs]
          dsimp only
          rw [if_neg hover, herr]
        · right
          refine ⟨(m.width, (cs : Int) - (parentStart : Int)) :: vs, ?_, ?_⟩
          · unfold resolveMarkerList
            rw [hcs]
            dsimp only
            rw [if_neg hover, hok]
          · intro wv hwv
            rcases List.mem_cons.mp hwv with rfl | hwv'
            · intro hw
              dsimp only at hw
              have : ¬((cs : Int) - (parentStart : Int) > 65535) :=
                fun hgt => hover ⟨hw, hgt⟩
              dsimp only
              omega
            · exact hvs wv hwv'

/-- Resolving all placed nodes' markers either fails with
`WidthOverflow` or yields values whose 16-bit entries are all below
65536. -/
theorem resolveAllMarkers_spec (arena : List TableNode)
    (starts : List (Nat × Nat)) :
    ∀ order : List Nat,
    (∀ j ∈ order, j < arena.length) →
    (∀ j ∈ order, (lookupStart starts j).isSome = true) →
    (∀ j ∈ order, ∀ node m, arena.get? j = some node → m ∈ node.markers →
      (lookupStart starts m.target).isSome = true) →
    resolveAllMarkers arena starts order = .error .widthOverflow ∨
    ∃ vs, resolveAllMarkers arena starts order = .ok vs ∧
      ∀ wv ∈ vs, wv.1 = .w16 → wv.2 < 65536 := by
  intro order
  induction order with
  | nil =>
    intro _ _ _
    exact .inr ⟨[], rfl, by simp⟩
  | cons idx rest ih =>
    intro hN hs hms
    have hidx := hN idx (List.mem_cons_self idx rest)
    rcases hget : arena.get? idx with _ | node
    · exfalso
      have := List.get?_eq_none.mp hget
      omega
    · rcases hps : lookupStart starts idx with _ | ps
      · exfalso
        have h1 := hs idx (List.mem_cons_self idx rest)
        rw [hps] at h1
        simp at h1
      · rcases resolveMarkerList_spec starts ps node.markers
          (fun m hm => hms idx (List.mem_cons_self idx rest) node m hget hm)
          with herr | ⟨vs, hok, hvs⟩
        · left
          unfold resolveAllMarkers
          rw [hget, hps]
          dsimp only
          rw [herr]
        · rcases ih (fun x hx => hN x (List.mem_cons_of_mem idx hx))
            (fun x hx => hs x (List.mem_cons_of_mem idx hx))
            (fun x hx => hms x (List.mem_cons_of_mem idx hx)) with
            herr2 | ⟨vs2, hok2, hvs2⟩
          · left
            unfold resolveAllMarkers
            rw [hget, hps]
            dsimp only
            rw [hok]
            dsimp only
            rw [herr2]
          · right
            refine ⟨vs ++ vs2, ?_, ?_⟩
            · unfold resolveAllMarkers
              rw [hget, hps]
              dsimp only
              rw [hok]
              dsimp only
              rw [hok2]
            · intro wv hwv
              rcases List.mem_append.mp hwv with h | h
              · exact hvs wv h
              · exact hvs2 wv h

/-- C2: for every acyclic table graph — acyclicity exhibited by a
rank function that strictly decreases along marker edges — with
in-range marker targets, resolution either succeeds with every
16-bit marker holding a value strictly below 65536, or fails with
`WidthOverflow`; an overflowing value is never truncated. -/
theorem c2_offset_resolver (arena : List TableNode) (root : Nat)
    (rank : Nat → Nat)
    (hroot : root < arena.length)
    (hW : ∀ node ∈ arena, ∀ m ∈ node.markers, m.target < arena.length)
    (hR : ∀ i, i < arena.length →
      ∀ m ∈ (arena.getD i ⟨0, []⟩).markers, rank m.target < rank i)
    (hB : ∀ i, i < arena.length → rank i < arena.length) :
    (∃ vals, resolveGraph arena root = .ok vals ∧
      ∀ wv ∈ vals, wv.1 = .w16 → wv.2 < 65536) ∨
    resolveGraph arena root = .error .widthOverflow := by
  obtain ⟨order, hrun, _, hrootmem, hQ, hInv⟩ :=
    (dfs_joint arena rank hW hR (arena.length + 1)).1 [] root []
      hroot (by simp) (by have := hB root hroot; omega) (by simp) (by simp)
  have hclosed : ∀ j ∈ order, ClosedIn arena order j := by
    intro j hj
    rcases hInv j hj with h | h
    · simp at h
    · exact h
  have hsome : ∀ j ∈ order,
      (lookupStart (layoutStarts arena order 0) j).isSome = true :=
    fun j hj => lookupStart_layout arena order 0 j hj
  have hmsome : ∀ j ∈ order, ∀ node m, arena.get? j = some node →
      m ∈ node.markers →
      (lookupStart (layoutStarts arena order 0) m.target).isSome = true := by
    intro j hj node m h1 h2
    exact lookupStart_layout arena order 0 _ (hclosed j hj node m h1 h2)
  rcases resolveAllMarkers_spec arena (layoutStarts arena order 0) order
      hQ hsome hmsome with herr | ⟨vs, hok, hvs⟩
  · right
    unfold resolveGraph
    rw [hrun]
    dsimp only
    exact herr
  · left
    refine ⟨vs, ?_, hvs⟩
    unfold resolveGraph
    rw [hrun]
    dsimp only
    exact hok

/-- Witness for C2 on a two-node arena: the root owns a 16-bit offset
to its four-byte-bodied child. -/
theorem c2_witness :
    (∃ vals, resolveGraph [⟨4, [⟨.w16, 1⟩]⟩, ⟨2, []⟩] 0 = .ok vals ∧
      ∀ wv ∈ vals, wv.1 = .w16 → wv.2 < 65536) ∨
    resolveGraph [⟨4, [⟨.w16, 1⟩]⟩, ⟨2, []⟩] 0 =
      .error .widthOverflow :=
  c2_offset_resolver [⟨4, [⟨.w16, 1⟩]⟩, ⟨2, []⟩] 0 (fun i => 1 - i)
    (by decide) (by decide) (by decide) (by decide)

end Fonticulus
